import Mathlib

/-!
Verification of the tool-orchestration core of the Gemini-Lead-Software-Engineer
repository: a shallow embedding in Lean 4 of the sandbox path resolver, the
workspace file accessor, the patch recorder, the command executor, the response
normalizer, the model-turn retry driver and the session-log redaction, together
with proofs and refutations of the specification's claims about them.

JavaScript strings are embedded as `List Char` (`JStr`); the relevant pieces of
`node:path` (`resolve`, `join`, `dirname`, POSIX flavour, as used by the code)
are given an executable model in the `NodePath` namespace.  The filesystem is
embedded as an explicit association-list state threaded through the operations.
-/

/-- A JavaScript string, embedded as its list of characters. -/
abbrev JStr := List Char

/-- Build a `JStr` from a Lean string literal. -/
def str (s : String) : JStr := s.data

instance {ε α : Type} [DecidableEq ε] [DecidableEq α] : DecidableEq (Except ε α) :=
  fun x y =>
    match x, y with
    | .ok a, .ok b =>
      if h : a = b then isTrue (by rw [h]) else isFalse (fun hh => h (Except.ok.inj hh))
    | .error a, .error b =>
      if h : a = b then isTrue (by rw [h]) else isFalse (fun hh => h (Except.error.inj hh))
    | .ok _, .error _ => isFalse (fun hh => Except.noConfusion hh)
    | .error _, .ok _ => isFalse (fun hh => Except.noConfusion hh)

namespace NodePath

/-- Split a character list on a separator character, JS `String.prototype.split`
style: `"" ↦ [""]`, separators at the edges produce empty pieces. -/
def splitOnChar (sep : Char) : List Char → List (List Char)
  | [] => [[]]
  | c :: rest =>
    if c = sep then [] :: splitOnChar sep rest
    else
      match splitOnChar sep rest with
      | [] => [[c]]
      | p :: ps => (c :: p) :: ps

/-- Join pieces with a leading separator before every piece: the rendering of
`/a/b` from `["a", "b"]`. -/
def consJoin (sep : Char) (ls : List (List Char)) : List Char :=
  (ls.map (fun p => sep :: p)).flatten

/-- JS `Array.prototype.join(sep)`: pieces interleaved with the separator. -/
def sepJoin (sep : Char) : List (List Char) → List Char
  | [] => []
  | c :: cs => c ++ consJoin sep cs

/-- One step of POSIX path normalisation over a component list: empty
components and `.` are dropped, `..` removes the previous component (clamped at
the root), anything else is kept. -/
def normStep (acc : List (List Char)) (c : List Char) : List (List Char) :=
  if c = [] ∨ c = ['.'] then acc
  else if c = ['.', '.'] then acc.dropLast
  else acc ++ [c]

/-- Normalise a component list of an absolute path (the component-level core of
`path.resolve` / `path.normalize`). -/
def normComps (l : List (List Char)) : List (List Char) :=
  l.foldl normStep []

/-- Render a normalised component list as an absolute path string. -/
def renderAbs (cs : List (List Char)) : JStr :=
  if cs = [] then ['/'] else consJoin '/' cs

/-- Whether a path string is absolute (`path.isAbsolute`, POSIX). -/
def isAbsolute (p : JStr) : Bool :=
  match p with
  | '/' :: _ => true
  | _ => false

/-- `path.resolve(p)` for an absolute `p`: normalise. -/
def resolveAbs (p : JStr) : JStr :=
  renderAbs (normComps (splitOnChar '/' p))

/-- `path.resolve(base, target)` with `base` absolute: an absolute `target`
wins, otherwise `target` is resolved against `base`. -/
def resolveFrom (base target : JStr) : JStr :=
  if isAbsolute target then resolveAbs target
  else renderAbs (normComps (splitOnChar '/' base ++ splitOnChar '/' target))

/-- `path.join(a, b)` for an absolute `a`: concatenate and normalise. -/
def pathJoin (a b : JStr) : JStr :=
  renderAbs (normComps (splitOnChar '/' a ++ splitOnChar '/' b))

/-- `path.dirname` on a normalised absolute path: drop the last component. -/
def dirname (p : JStr) : JStr :=
  renderAbs (((splitOnChar '/' p).filter (fun c => !c.isEmpty)).dropLast)

/-- A well-formed path component: nonempty, not a dot component, and free of
the separator.  `normComps` produces only such components. -/
def Good (c : List Char) : Prop :=
  c ≠ [] ∧ c ≠ ['.'] ∧ c ≠ ['.', '.'] ∧ '/' ∉ c

instance (c : List Char) : Decidable (Good c) := by
  unfold Good; infer_instance

end NodePath

namespace NodePath

theorem splitOnChar_ne_nil (sep : Char) (l : List Char) : splitOnChar sep l ≠ [] := by
  induction l with
  | nil => simp [splitOnChar]
  | cons c rest ih =>
    rw [splitOnChar]
    by_cases hc : c = sep
    · simp [hc]
    · rw [if_neg hc]
      cases h : splitOnChar sep rest with
      | nil => simp
      | cons p ps => simp

theorem not_mem_of_mem_splitOnChar (sep : Char) (l : List Char) :
    ∀ p ∈ splitOnChar sep l, sep ∉ p := by
  induction l with
  | nil =>
    intro p hp
    simp [splitOnChar] at hp
    simp [hp]
  | cons c rest ih =>
    intro p hp
    by_cases hc : c = sep
    · rw [splitOnChar, if_pos hc] at hp
      rcases List.mem_cons.mp hp with hp | hp
      · subst hp; simp
      · exact ih p hp
    · rw [splitOnChar, if_neg hc] at hp
      cases h : splitOnChar sep rest with
      | nil => exact absurd h (splitOnChar_ne_nil sep rest)
      | cons q qs =>
        rw [h] at hp
        rcases List.mem_cons.mp hp with hp | hp
        · subst hp
          intro hmem
          rcases List.mem_cons.mp hmem with h1 | h1
          · exact hc h1.symm
          · exact ih q (h ▸ List.mem_cons_self q qs) h1
        · exact ih p (h ▸ List.mem_cons_of_mem q hp)

theorem splitOnChar_append_noSep (sep : Char) (x l : List Char) (hx : sep ∉ x) :
    splitOnChar sep (x ++ l) =
      (x ++ (splitOnChar sep l).headI) :: (splitOnChar sep l).tail := by
  induction x with
  | nil =>
    simp only [List.nil_append]
    cases h : splitOnChar sep l with
    | nil => exact absurd h (splitOnChar_ne_nil sep l)
    | cons p ps => simp
  | cons c cs ih =>
    have hc : c ≠ sep := fun h => hx (h ▸ List.mem_cons_self c cs)
    have hcs : sep ∉ cs := fun h => hx (List.mem_cons_of_mem c h)
    rw [List.cons_append, splitOnChar, if_neg hc, ih hcs]
    simp

theorem splitOnChar_singleton (sep : Char) (n : List Char) (hn : sep ∉ n) :
    splitOnChar sep n = [n] := by
  have := splitOnChar_append_noSep sep n [] hn
  simpa [splitOnChar] using this

theorem consJoin_append (sep : Char) (l₁ l₂ : List (List Char)) :
    consJoin sep (l₁ ++ l₂) = consJoin sep l₁ ++ consJoin sep l₂ := by
  simp [consJoin]

theorem consJoin_cons (sep : Char) (c : List Char) (cs : List (List Char)) :
    consJoin sep (c :: cs) = sep :: (c ++ consJoin sep cs) := by
  simp [consJoin]

theorem consJoin_singleton (sep : Char) (c : List Char) :
    consJoin sep [c] = sep :: c := by
  simp [consJoin]

theorem splitOnChar_consJoin (sep : Char) (ls : List (List Char))
    (hls : ∀ c ∈ ls, sep ∉ c) :
    splitOnChar sep (consJoin sep ls) = [] :: ls := by
  induction ls with
  | nil => simp [consJoin, splitOnChar]
  | cons c cs ih =>
    have hc : sep ∉ c := hls c (List.mem_cons_self c cs)
    have hcs : ∀ p ∈ cs, sep ∉ p := fun p hp => hls p (List.mem_cons_of_mem c hp)
    rw [consJoin_cons]
    simp only [splitOnChar, if_pos rfl]
    rw [splitOnChar_append_noSep sep c _ hc, ih hcs]
    simp

theorem splitOnChar_sepJoin (sep : Char) (ls : List (List Char))
    (hls : ∀ c ∈ ls, sep ∉ c) (hne : ls ≠ []) :
    splitOnChar sep (sepJoin sep ls) = ls := by
  cases ls with
  | nil => exact absurd rfl hne
  | cons c cs =>
    have hc : sep ∉ c := hls c (List.mem_cons_self c cs)
    have hcs : ∀ p ∈ cs, sep ∉ p := fun p hp => hls p (List.mem_cons_of_mem c hp)
    simp only [sepJoin]
    rw [splitOnChar_append_noSep sep c _ hc, splitOnChar_consJoin sep cs hcs]
    simp

end NodePath

namespace NodePath

theorem good_of_mem_normStep (acc : List (List Char)) (c : List Char)
    (hacc : ∀ p ∈ acc, Good p) (hc : '/' ∉ c) :
    ∀ p ∈ normStep acc c, Good p := by
  intro p hp
  unfold normStep at hp
  split at hp
  · exact hacc p hp
  · split at hp
    · exact hacc p (List.dropLast_subset _ hp)
    · rcases List.mem_append.mp hp with h | h
      · exact hacc p h
      · rcases List.mem_singleton.mp h with rfl
        rename_i h1 h2
        push_neg at h1
        exact ⟨h1.1, h1.2, h2, hc⟩

theorem good_of_mem_foldl_normStep (l : List (List Char)) :
    ∀ acc, (∀ p ∈ acc, Good p) → (∀ c ∈ l, '/' ∉ c) →
    ∀ p ∈ l.foldl normStep acc, Good p := by
  induction l with
  | nil => intro acc hacc _ p hp; exact hacc p hp
  | cons c cs ih =>
    intro acc hacc hl p hp
    rw [List.foldl_cons] at hp
    exact ih (normStep acc c)
      (good_of_mem_normStep acc c hacc (hl c (List.mem_cons_self c cs)))
      (fun d hd => hl d (List.mem_cons_of_mem c hd)) p hp

theorem good_of_mem_normComps (l : List (List Char)) (hl : ∀ c ∈ l, '/' ∉ c) :
    ∀ p ∈ normComps l, Good p :=
  good_of_mem_foldl_normStep l [] (by simp) hl

theorem good_of_mem_normComps_split (s : JStr) :
    ∀ p ∈ normComps (splitOnChar '/' s), Good p :=
  good_of_mem_normComps _ (not_mem_of_mem_splitOnChar '/' s)

theorem foldl_normStep_of_good (l : List (List Char)) :
    ∀ acc, (∀ c ∈ l, Good c) → l.foldl normStep acc = acc ++ l := by
  induction l with
  | nil => intro acc _; simp
  | cons c cs ih =>
    intro acc hl
    have hc : Good c := hl c (List.mem_cons_self c cs)
    have step : normStep acc c = acc ++ [c] := by
      unfold normStep
      rw [if_neg, if_neg hc.2.2.1]
      push_neg
      exact ⟨hc.1, hc.2.1⟩
    rw [List.foldl_cons, step, ih _ (fun d hd => hl d (List.mem_cons_of_mem c hd))]
    simp

theorem normComps_append_good (l₁ l₂ : List (List Char)) (h₂ : ∀ c ∈ l₂, Good c) :
    normComps (l₁ ++ l₂) = normComps l₁ ++ l₂ := by
  unfold normComps
  rw [List.foldl_append]
  exact foldl_normStep_of_good l₂ _ h₂

theorem normComps_of_good (l : List (List Char)) (h : ∀ c ∈ l, Good c) :
    normComps l = l := by
  unfold normComps
  simpa using foldl_normStep_of_good l [] h

theorem normComps_nil_cons (l : List (List Char)) :
    normComps ([] :: l) = normComps l := by
  unfold normComps
  simp [List.foldl_cons, normStep]

end NodePath

namespace NodePath

theorem seg_prefix {x y u v : List Char} (hx : '/' ∉ x) (hy : '/' ∉ y)
    (hu : ∃ t, u = '/' :: t) (hv : v = [] ∨ ∃ t, v = '/' :: t)
    (h : x ++ u <+: y ++ v) : x = y ∧ u <+: v := by
  induction x generalizing y with
  | nil =>
    cases y with
    | nil => exact ⟨rfl, by simpa using h⟩
    | cons b ys =>
      obtain ⟨t, rfl⟩ := hu
      simp only [List.nil_append, List.cons_append] at h
      rw [List.cons_prefix_cons] at h
      exact absurd h.1.symm (fun hb => hy (hb ▸ List.mem_cons_self b ys))
  | cons a xs ih =>
    have ha : a ≠ '/' := fun hh => hx (hh ▸ List.mem_cons_self a xs)
    have hxs : '/' ∉ xs := fun hh => hx (List.mem_cons_of_mem a hh)
    cases y with
    | nil =>
      rcases hv with rfl | ⟨t, rfl⟩
      · simp only [List.cons_append, List.nil_append, List.append_nil] at h
        exact absurd (List.eq_nil_of_prefix_nil h) (by simp)
      · simp only [List.cons_append, List.nil_append] at h
        rw [List.cons_prefix_cons] at h
        exact absurd h.1 ha
    | cons b ys =>
      have hys : '/' ∉ ys := fun hh => hy (List.mem_cons_of_mem b hh)
      simp only [List.cons_append] at h
      rw [List.cons_prefix_cons] at h
      obtain ⟨rfl, htl⟩ := h
      obtain ⟨h1, h2⟩ := ih hxs hys htl
      exact ⟨by rw [h1], h2⟩

theorem seg_eq {x y u v : List Char} (hx : '/' ∉ x) (hy : '/' ∉ y)
    (hu : u = [] ∨ ∃ t, u = '/' :: t) (hv : v = [] ∨ ∃ t, v = '/' :: t)
    (h : x ++ u = y ++ v) : x = y ∧ u = v := by
  induction x generalizing y with
  | nil =>
    cases y with
    | nil => exact ⟨rfl, by simpa using h⟩
    | cons b ys =>
      have hb : b ≠ '/' := fun hh => hy (hh ▸ List.mem_cons_self b ys)
      rcases hu with rfl | ⟨t, rfl⟩
      · simp at h
      · simp only [List.nil_append, List.cons_append, List.cons.injEq] at h
        exact absurd h.1.symm hb
  | cons a xs ih =>
    have ha : a ≠ '/' := fun hh => hx (hh ▸ List.mem_cons_self a xs)
    have hxs : '/' ∉ xs := fun hh => hx (List.mem_cons_of_mem a hh)
    cases y with
    | nil =>
      rcases hv with rfl | ⟨t, rfl⟩
      · simp at h
      · simp only [List.cons_append, List.nil_append, List.cons.injEq] at h
        exact absurd h.1 ha
    | cons b ys =>
      have hys : '/' ∉ ys := fun hh => hy (List.mem_cons_of_mem b hh)
      simp only [List.cons_append, List.cons.injEq] at h
      obtain ⟨rfl, htl⟩ := h
      obtain ⟨h1, h2⟩ := ih hxs hys htl
      exact ⟨by rw [h1], h2⟩

theorem splitFirst_eq {u v a b : List Char} (hu : '/' ∉ u) (hv : '/' ∉ v)
    (h : u ++ '/' :: a = v ++ '/' :: b) : u = v ∧ a = b := by
  have := seg_eq hu hv (Or.inr ⟨a, rfl⟩) (Or.inr ⟨b, rfl⟩) h
  exact ⟨this.1, by simpa using this.2⟩

theorem consJoin_shape (ls : List (List Char)) :
    consJoin '/' ls = [] ∨ ∃ t, consJoin '/' ls = '/' :: t := by
  cases ls with
  | nil => left; simp [consJoin]
  | cons c cs => right; exact ⟨c ++ consJoin '/' cs, consJoin_cons '/' c cs⟩

theorem consJoin_append_slash (ls : List (List Char)) :
    ∃ t, consJoin '/' ls ++ ['/'] = '/' :: t := by
  cases ls with
  | nil => exact ⟨[], by simp [consJoin]⟩
  | cons c cs => exact ⟨c ++ consJoin '/' cs ++ ['/'], by rw [consJoin_cons]; simp⟩

theorem consJoin_good_prefix {W A : List (List Char)}
    (hW : ∀ c ∈ W, Good c) (hA : ∀ c ∈ A, Good c)
    (h : consJoin '/' W ++ ['/'] <+: consJoin '/' A) : W <+: A := by
  induction W generalizing A with
  | nil => exact List.nil_prefix
  | cons w ws ih =>
    have hw : Good w := hW w (List.mem_cons_self w ws)
    have hws : ∀ c ∈ ws, Good c := fun c hc => hW c (List.mem_cons_of_mem w hc)
    cases A with
    | nil =>
      rw [consJoin_cons] at h
      simp only [consJoin, List.map_nil, List.flatten_nil] at h
      have := List.eq_nil_of_prefix_nil h
      simp at this
    | cons a as =>
      have haG : Good a := hA a (List.mem_cons_self a as)
      have has : ∀ c ∈ as, Good c := fun c hc => hA c (List.mem_cons_of_mem a hc)
      rw [consJoin_cons, consJoin_cons] at h
      simp only [List.cons_append, List.append_assoc] at h
      rw [List.cons_prefix_cons] at h
      obtain ⟨-, htl⟩ := h
      obtain ⟨rfl, h2⟩ := seg_prefix hw.2.2.2 haG.2.2.2
        (consJoin_append_slash ws) (consJoin_shape as) htl
      exact List.cons_prefix_cons.mpr ⟨rfl, ih hws has h2⟩

theorem consJoin_good_inj {A B : List (List Char)}
    (hA : ∀ c ∈ A, Good c) (hB : ∀ c ∈ B, Good c)
    (h : consJoin '/' A = consJoin '/' B) : A = B := by
  induction A generalizing B with
  | nil =>
    cases B with
    | nil => rfl
    | cons b bs =>
      rw [consJoin_cons] at h
      simp [consJoin] at h
  | cons a as ih =>
    have haG : Good a := hA a (List.mem_cons_self a as)
    have has : ∀ c ∈ as, Good c := fun c hc => hA c (List.mem_cons_of_mem a hc)
    cases B with
    | nil =>
      rw [consJoin_cons] at h
      simp [consJoin] at h
    | cons b bs =>
      have hbG : Good b := hB b (List.mem_cons_self b bs)
      have hbs : ∀ c ∈ bs, Good c := fun c hc => hB c (List.mem_cons_of_mem b hc)
      rw [consJoin_cons, consJoin_cons] at h
      simp only [List.cons.injEq, true_and] at h
      obtain ⟨rfl, h2⟩ := seg_eq haG.2.2.2 hbG.2.2.2
        (consJoin_shape as) (consJoin_shape bs) h
      rw [ih has hbs h2]

theorem renderAbs_good_inj {A B : List (List Char)}
    (hA : ∀ c ∈ A, Good c) (hB : ∀ c ∈ B, Good c)
    (h : renderAbs A = renderAbs B) : A = B := by
  unfold renderAbs at h
  by_cases ha : A = []
  · by_cases hb : B = []
    · rw [ha, hb]
    · subst ha
      rw [if_pos rfl, if_neg hb] at h
      cases B with
      | nil => rfl
      | cons b bs =>
        have hbG : Good b := hB b (List.mem_cons_self b bs)
        rw [consJoin_cons] at h
        simp only [List.cons.injEq, true_and] at h
        exact absurd h.symm (by simpa using fun hh _ => hbG.1 hh)
  · by_cases hb : B = []
    · subst hb
      rw [if_neg ha, if_pos rfl] at h
      cases A with
      | nil => exact absurd rfl ha
      | cons a as =>
        have haG : Good a := hA a (List.mem_cons_self a as)
        rw [consJoin_cons] at h
        simp only [List.cons.injEq, true_and] at h
        exact absurd h (by simpa using fun hh _ => haG.1 hh)
    · rw [if_neg ha, if_neg hb] at h
      exact consJoin_good_inj hA hB h

theorem renderAbs_good_prefix {W A : List (List Char)}
    (hW : ∀ c ∈ W, Good c) (hA : ∀ c ∈ A, Good c)
    (h : renderAbs W ++ ['/'] <+: renderAbs A) : W <+: A := by
  by_cases hw : W = []
  · subst hw; exact List.nil_prefix
  · by_cases ha : A = []
    · subst ha
      exfalso
      unfold renderAbs at h
      rw [if_neg hw, if_pos rfl] at h
      cases W with
      | nil => exact hw rfl
      | cons w ws =>
        have hwG : Good w := hW w (List.mem_cons_self w ws)
        rw [consJoin_cons] at h
        have hlen := h.length_le
        simp only [List.cons_append, List.length_cons, List.length_append,
          List.length_singleton] at hlen
        omega
    · unfold renderAbs at h
      rw [if_neg hw, if_neg ha] at h
      exact consJoin_good_prefix hW hA h

end NodePath

namespace NodePath

theorem consJoin_dropLast_getLast (cs : List (List Char)) (h : cs ≠ []) :
    consJoin '/' cs = consJoin '/' cs.dropLast ++ '/' :: cs.getLast h := by
  conv_lhs => rw [← List.dropLast_append_getLast h]
  rw [consJoin_append, consJoin_singleton]

theorem splitOnChar_renderAbs (cs : List (List Char)) (hcs : ∀ c ∈ cs, Good c)
    (h : cs ≠ []) : splitOnChar '/' (renderAbs cs) = [] :: cs := by
  rw [renderAbs, if_neg h]
  exact splitOnChar_consJoin '/' cs (fun c hc => (hcs c hc).2.2.2)

theorem dirname_renderAbs (cs : List (List Char)) (hcs : ∀ c ∈ cs, Good c)
    (h : cs ≠ []) : dirname (renderAbs cs) = renderAbs cs.dropLast := by
  rw [dirname, splitOnChar_renderAbs cs hcs h]
  have : (([] :: cs).filter (fun c => !c.isEmpty)) = cs := by
    rw [List.filter_cons]
    simp only [List.isEmpty_nil, Bool.not_true, Bool.false_eq_true, if_false]
    exact List.filter_eq_self.mpr (fun c hc => by
      simpa [List.isEmpty_iff] using (hcs c hc).1)
  rw [this]

theorem resolveFrom_comps (base target : JStr) :
    ∃ A, (∀ c ∈ A, Good c) ∧ resolveFrom base target = renderAbs A := by
  unfold resolveFrom
  by_cases h : isAbsolute target = true
  · rw [if_pos h]
    exact ⟨_, good_of_mem_normComps_split target, rfl⟩
  · rw [if_neg h]
    refine ⟨_, ?_, rfl⟩
    apply good_of_mem_normComps
    intro c hc
    rcases List.mem_append.mp hc with hm | hm
    · exact not_mem_of_mem_splitOnChar '/' base c hm
    · exact not_mem_of_mem_splitOnChar '/' target c hm

end NodePath

open NodePath in
/-- The component list of the resolved workspace root `path.resolve(workspace)`
(for an absolute `workspace`). -/
def rootComps (workspace : JStr) : List (List Char) :=
  normComps (splitOnChar '/' workspace)

open NodePath in
theorem good_rootComps (workspace : JStr) : ∀ c ∈ rootComps workspace, Good c :=
  good_of_mem_normComps_split workspace

open NodePath in
/-- `abs` lies at or strictly below the directory whose component list is
`root`: it renders some well-formed extension of `root`. -/
def WithinRoot (root : List (List Char)) (abs : JStr) : Prop :=
  ∃ rest, (∀ c ∈ rest, Good c) ∧ abs = renderAbs (root ++ rest)

namespace Files

open NodePath

/-- `resolveInside` from `src/tools/files.mjs`: resolve the caller-supplied
path against the workspace root and reject any result that is neither the root
itself nor prefixed by `root + path.sep`. -/
def resolveInside (workspace targetPath : JStr) : Except JStr JStr :=
  let root := resolveAbs workspace
  let abs := resolveFrom root targetPath
  if abs = root then .ok abs
  else if (root ++ ['/']) <+: abs then .ok abs
  else .error (str "Path escapes workspace: " ++ targetPath)

/-- The sanitisation `filePath.replace(/[\\/]/g, '_')` used to build artifact
file names in `src/tools/files.mjs`. -/
def sanitize (fp : JStr) : JStr :=
  fp.map (fun c => if c = '/' ∨ c = '\\' then '_' else c)

end Files

/-- The filesystem state visible to the tools: file contents (of type `α`) and
the set of directories created so far, both keyed by absolute path strings. -/
structure Store (α : Type) where
  files : List (JStr × α)
  dirs : List JStr

/-- The empty filesystem. -/
def Store.empty {α : Type} : Store α := ⟨[], []⟩

/-- `fs.readFile`: the content stored at a path, if any. -/
def Store.read {α : Type} (fs : Store α) (p : JStr) : Option α :=
  (fs.files.find? (fun e => e.1 == p)).map (·.2)

/-- `fs.writeFile`: replace whatever was stored at `p` by `c`. -/
def Store.write {α : Type} (fs : Store α) (p : JStr) (c : α) : Store α :=
  ⟨(p, c) :: fs.files.filter (fun e => !(e.1 == p)), fs.dirs⟩

/-- Remove the entry at `p`. -/
def Store.remove {α : Type} (fs : Store α) (p : JStr) : Store α :=
  ⟨fs.files.filter (fun e => !(e.1 == p)), fs.dirs⟩

/-- `fs.rename(src, dst)`: move the content at `src` to `dst`. -/
def Store.rename {α : Type} (fs : Store α) (src dst : JStr) : Store α :=
  match fs.read src with
  | none => fs
  | some c => (fs.remove src).write dst c

/-- `fs.mkdir(p, { recursive: true })`: record the directory. -/
def Store.mkdirp {α : Type} (fs : Store α) (p : JStr) : Store α :=
  ⟨fs.files, p :: fs.dirs⟩

namespace Files

open NodePath

/-- The filesystem state threaded through `src/tools/files.mjs`, with string
file contents. -/
abbrev FS := Store JStr

/-- `ensureParent` from `src/tools/files.mjs`: create the parent directory of
an absolute path. -/
def ensureParent (abs : JStr) (fs : FS) : FS :=
  fs.mkdirp (dirname abs)

/-- Stand-in for `Diff.createPatch(filePath, oldContent, newContent)` from the
external `diff` npm package: a deterministic pure function of its three
arguments (the proofs rely only on that determinism, not on the diff format). -/
def createPatch (name oldContent newContent : JStr) : JStr :=
  str "Index: " ++ name ++ ['\n'] ++ str "-" ++ oldContent ++ ['\n'] ++
    str "+" ++ newContent

/-- The result record returned by `applyPatch` in `src/tools/files.mjs`.
`gitStatus` comes from an external `git` subprocess and is modelled as empty. -/
structure ApplyResult where
  filepath : JStr
  wrote : Bool
  diff : JStr
  patchFile : JStr
  fullFileArtifact : JStr
  gitStatus : JStr

/-- `applyPatch` from `src/tools/files.mjs`: resolve the target inside the
workspace, create its parent directory, read the prior content (absent files
count as empty), record a diff artifact and a full-copy artifact under
`patchesDir`, and only then — if approved — write the new content through a
temporary file followed by a rename.  `timestamp` and `pid` stand for the
wall-clock timestamp string and `process.pid`, which are inputs of the run. -/
def applyPatch (filePath newContent ws : JStr) (approve : Bool)
    (patchesDir timestamp pid : JStr) (fs : FS) :
    Except JStr (ApplyResult × FS) := do
  let abs ← resolveInside ws filePath
  let fs1 := ensureParent abs fs
  let oldContent := (fs1.read abs).getD []
  let diffText := createPatch filePath oldContent newContent
  let patchName := timestamp ++ '-' :: sanitize filePath ++ str ".patch"
  let patchAbs ← resolveInside patchesDir patchName
  let fs2 := fs1.mkdirp (dirname patchAbs)
  let fs3 := fs2.write patchAbs diffText
  let fullName := timestamp ++ '-' :: sanitize filePath ++ str ".full"
  let fullAbs := pathJoin patchesDir fullName
  let fs4 := fs3.write fullAbs newContent
  if approve then
    let tmp := abs ++ str ".tmp." ++ pid
    let fs5 := fs4.write tmp newContent
    let fs6 := fs5.rename tmp abs
    pure ({ filepath := filePath, wrote := true, diff := diffText,
            patchFile := patchAbs, fullFileArtifact := fullAbs,
            gitStatus := [] }, fs6)
  else
    pure ({ filepath := filePath, wrote := false, diff := diffText,
            patchFile := patchAbs, fullFileArtifact := fullAbs,
            gitStatus := [] }, fs4)

/-- `readFile` from `src/tools/files.mjs`: resolve inside the workspace, read,
and truncate to `byteLimit` bytes when that argument is truthy (in JS a `0` or
missing `byteLimit` is falsy and means "whole file"). -/
def readFile (filePath ws : JStr) (byteLimit : Option Nat) (fs : FS) :
    Except JStr JStr := do
  let abs ← resolveInside ws filePath
  match fs.read abs with
  | none => .error (str "ENOENT")
  | some data =>
    match byteLimit with
    | none => pure data
    | some n => if n = 0 then pure data else pure (data.take n)

/-- The outcome of the external `rg` subprocess spawned by `searchFiles`:
either a resolved call with captured stdout, or a thrown error object whose
`stdout` field may be present. -/
inductive RgOutcome where
  | ok (stdout : JStr)
  | err (stdout : Option JStr)

/-- `searchFiles` from `src/tools/files.mjs`: on success, keep the first
`maxResults` nonempty lines of `rg`'s stdout; on a thrown error (`rg` exits
nonzero on zero matches and on partial failures), return the error's stdout if
truthy, else the empty string. -/
def searchFiles (maxResults : Nat) (outcome : RgOutcome) : JStr :=
  match outcome with
  | .ok out =>
    sepJoin '\n' (((splitOnChar '\n' out).filter (fun l => !l.isEmpty)).take maxResults)
  | .err so =>
    match so with
    | some s => if s.isEmpty then [] else s
    | none => []

end Files

namespace Files

open NodePath

theorem resolveInside_ok_within (ws t abs : JStr)
    (h : resolveInside ws t = .ok abs) : WithinRoot (rootComps ws) abs := by
  simp only [resolveInside] at h
  obtain ⟨A, hAgood, hA⟩ := resolveFrom_comps (resolveAbs ws) t
  rw [hA] at h
  by_cases h1 : renderAbs A = resolveAbs ws
  · rw [if_pos h1] at h
    refine ⟨[], by simp, ?_⟩
    simp only [Except.ok.injEq] at h
    rw [← h, h1, List.append_nil]
    rfl
  · rw [if_neg h1] at h
    by_cases h2 : (resolveAbs ws ++ ['/']) <+: renderAbs A
    · rw [if_pos h2] at h
      simp only [Except.ok.injEq] at h
      have hpre : rootComps ws <+: A :=
        renderAbs_good_prefix (good_rootComps ws) hAgood h2
      obtain ⟨rest, hrest⟩ := hpre
      refine ⟨rest, ?_, ?_⟩
      · intro c hc
        exact hAgood c (hrest ▸ List.mem_append.mpr (Or.inr hc))
      · rw [← h, hrest]
    · rw [if_neg h2] at h
      exact absurd h (by simp)

theorem resolveInside_ok_comps (ws t abs : JStr)
    (h : resolveInside ws t = .ok abs) :
    ∃ A, (∀ c ∈ A, Good c) ∧ rootComps ws <+: A ∧ abs = renderAbs A := by
  obtain ⟨rest, hg, habs⟩ := resolveInside_ok_within ws t abs h
  exact ⟨rootComps ws ++ rest, by
    intro c hc
    rcases List.mem_append.mp hc with hm | hm
    · exact good_rootComps ws c hm
    · exact hg c hm, List.prefix_append _ _, habs⟩

theorem resolveInside_good_name (pd n : JStr) (hn : '/' ∉ n) (hlen : 2 < n.length)
    (hP : rootComps pd ≠ []) :
    resolveInside pd n = .ok (renderAbs (rootComps pd ++ [n])) := by
  have hGood : Good n := by
    refine ⟨?_, ?_, ?_, hn⟩
    · intro h; rw [h] at hlen; simp at hlen
    · intro h; rw [h] at hlen; simp at hlen
    · intro h; rw [h] at hlen; simp at hlen
  have habs : isAbsolute n = false := by
    cases n with
    | nil => rfl
    | cons c cs =>
      by_cases hc : c = '/'
      · exact absurd (hc ▸ List.mem_cons_self c cs) hn
      · simp only [isAbsolute]
        split
        · rename_i heq
          rw [List.cons.injEq] at heq
          exact absurd heq.1 hc
        · rfl
  have hres : resolveAbs pd = renderAbs (rootComps pd) := rfl
  have hfrom : resolveFrom (resolveAbs pd) n = renderAbs (rootComps pd ++ [n]) := by
    unfold resolveFrom
    rw [habs]
    simp only [Bool.false_eq_true, if_false]
    have hsplit : splitOnChar '/' (resolveAbs pd) = [] :: rootComps pd :=
      splitOnChar_renderAbs (rootComps pd) (good_rootComps pd) hP
    rw [hsplit, splitOnChar_singleton '/' n hn, List.cons_append, normComps_nil_cons,
        normComps_append_good _ [n] (by simpa using hGood),
        normComps_of_good _ (good_rootComps pd)]
  have hne : renderAbs (rootComps pd ++ [n]) ≠ resolveAbs pd := by
    intro hcontra
    rw [hres] at hcontra
    have := renderAbs_good_inj (A := rootComps pd ++ [n]) (B := rootComps pd)
      (by
        intro c hc
        rcases List.mem_append.mp hc with hm | hm
        · exact good_rootComps pd c hm
        · rcases List.mem_singleton.mp hm with rfl
          exact hGood)
      (good_rootComps pd) hcontra
    simpa using congrArg List.length this
  have hpre : (resolveAbs pd ++ ['/']) <+: renderAbs (rootComps pd ++ [n]) := by
    rw [hres, renderAbs, if_neg hP, renderAbs,
        if_neg (show rootComps pd ++ [n] ≠ [] by simp),
        consJoin_append, consJoin_singleton]
    exact ⟨n, by simp⟩
  simp only [resolveInside]
  rw [hfrom, if_neg hne, if_pos hpre]

theorem pathJoin_good_name (pd n : JStr) (hn : '/' ∉ n) (hGood : Good n) :
    pathJoin pd n = renderAbs (rootComps pd ++ [n]) := by
  unfold pathJoin
  rw [splitOnChar_singleton '/' n hn]
  unfold normComps
  rw [List.foldl_append]
  have : (splitOnChar '/' pd).foldl normStep [] = rootComps pd := rfl
  rw [this]
  have : List.foldl normStep (rootComps pd) [n] = rootComps pd ++ [n] :=
    foldl_normStep_of_good [n] _ (by simpa using hGood)
  rw [this]

end Files

theorem Store.read_write_self {α : Type} (fs : Store α) (p : JStr) (c : α) :
    (fs.write p c).read p = some c := by
  simp [Store.read, Store.write, List.find?_cons_of_pos]

theorem find_filter_ne {α : Type} (l : List (JStr × α)) (p q : JStr) (h : q ≠ p) :
    (l.filter (fun e => !(e.1 == p))).find? (fun e => e.1 == q) =
      l.find? (fun e => e.1 == q) := by
  induction l with
  | nil => simp
  | cons e es ih =>
    by_cases hep : e.1 = p
    · have h1 : (!(e.1 == p)) = false := by simp [hep]
      have h2 : (e.1 == q) = false := by
        simp only [hep, beq_eq_false_iff_ne, ne_eq]
        exact fun hh => h hh.symm
      rw [List.filter_cons, h1, List.find?_cons, h2]
      simp only [Bool.false_eq_true, if_false]
      exact ih
    · have h1 : (!(e.1 == p)) = true := by simp [hep]
      rw [List.filter_cons, h1]
      simp only [if_true]
      rw [List.find?_cons, List.find?_cons]
      by_cases heq : e.1 = q
      · simp [heq]
      · have hq : (e.1 == q) = false := by simpa using heq
        rw [hq]
        simp only [Bool.false_eq_true, if_false]
        exact ih

theorem Store.read_write_ne {α : Type} (fs : Store α) (p : JStr) (c : α) (q : JStr)
    (h : q ≠ p) : (fs.write p c).read q = fs.read q := by
  simp only [Store.read, Store.write]
  rw [List.find?_cons]
  have : ((p, c).1 == q) = false := by
    simp only [beq_eq_false_iff_ne, ne_eq]
    exact fun hh => h hh.symm
  rw [this]
  simp only [Bool.false_eq_true, if_false]
  rw [find_filter_ne fs.files p q h]

theorem Store.read_remove_ne {α : Type} (fs : Store α) (p q : JStr) (h : q ≠ p) :
    (fs.remove p).read q = fs.read q := by
  simp only [Store.read, Store.remove]
  rw [find_filter_ne fs.files p q h]

theorem Store.read_mkdirp {α : Type} (fs : Store α) (d q : JStr) :
    (fs.mkdirp d).read q = fs.read q := rfl

theorem Store.read_rename_dst {α : Type} (fs : Store α) (src dst : JStr) (c : α)
    (h : fs.read src = some c) : (fs.rename src dst).read dst = some c := by
  unfold Store.rename
  rw [h]
  exact Store.read_write_self _ dst c

theorem Store.read_rename_other {α : Type} (fs : Store α) (src dst q : JStr)
    (h1 : q ≠ src) (h2 : q ≠ dst) : (fs.rename src dst).read q = fs.read q := by
  unfold Store.rename
  cases h : fs.read src with
  | none => rfl
  | some c => rw [Store.read_write_ne _ dst c q h2, Store.read_remove_ne _ src q h1]


namespace Part3

open NodePath

/-- A byte buffer (`Buffer` contents in `src/unnamed/part_003`). -/
abbrev Bytes := List Nat

/-- The filesystem state threaded through `src/unnamed/part_003`, with byte
buffer contents. -/
abbrev FSb := Store Bytes

/-- Stand-in for `crypto.createHash('sha256')` from node's `crypto` module: a
deterministic digest of a byte buffer (the proofs rely only on determinism,
never on any property of the digest itself). -/
def sha256 (b : Bytes) : Bytes :=
  [b.length % 256, b.foldl (fun a x => (a * 31 + x) % 256) 7]

/-- `ensureInWorkspace` from `src/unnamed/part_003`: resolve the target against
the workspace and accept whenever the result merely *starts with* the resolved
workspace string — no separator is appended before the prefix test. -/
def ensureInWorkspace (workspace targetPath : JStr) : Except JStr JStr :=
  if (resolveAbs workspace) <+: (resolveFrom workspace targetPath) then
    .ok (resolveFrom workspace targetPath)
  else
    .error (str "Path " ++ targetPath ++ str " is outside workspace")

/-- The record returned by `readFile` in `src/unnamed/part_003`: the decoded
slice, its byte length, and a digest of the slice. -/
structure ReadResult where
  content : Bytes
  bytes : Nat
  sha256 : Bytes
  deriving DecidableEq

/-- `readFile` from `src/unnamed/part_003`: resolve, read (a missing file is an
error), slice the first `byteLimit` bytes (a missing limit keeps everything),
and return the slice with its length and digest. -/
def readFile (filePath ws : JStr) (byteLimit : Option Nat) (fs : FSb) :
    Except JStr ReadResult := do
  let abs ← ensureInWorkspace ws filePath
  match fs.read abs with
  | none => .error (str "ENOENT")
  | some data =>
    let slice := match byteLimit with
      | none => data
      | some n => data.take n
    pure ⟨slice, slice.length, sha256 slice⟩

/-- The sanitisation `filePath.replace(/\//g, '_')` from `src/unnamed/part_003`
(only forward slashes are replaced in this variant). -/
def sanitize (fp : JStr) : JStr :=
  fp.map (fun c => if c = '/' then '_' else c)

/-- The record returned by `applyPatch` in `src/unnamed/part_003`; `mode` is
only set on the dry-run path and `status` comes from an external `git`
subprocess, modelled as empty. -/
structure PatchResult where
  wrote : Bool
  mode : JStr
  beforeHash : Bytes
  afterHash : Bytes
  bytes : Nat
  artifact : JStr
  status : JStr

/-- `applyPatch` from `src/unnamed/part_003`: resolve, hash the prior and the
new content, persist a full-copy artifact under `patchesDir`, and—only when
approved—write through a temporary file followed by a rename. -/
def applyPatch (filePath : JStr) (newContent : Bytes) (ws : JStr) (approve : Bool)
    (patchesDir ts pid : JStr) (fs : FSb) : Except JStr (PatchResult × FSb) := do
  let abs ← ensureInWorkspace ws filePath
  let before := (fs.read abs).getD []
  let beforeHash := sha256 before
  let afterHash := sha256 newContent
  let fs1 := fs.mkdirp patchesDir
  let artifact := pathJoin patchesDir (ts ++ '-' :: sanitize filePath ++ str ".full")
  let fs2 := fs1.write artifact newContent
  if approve then
    let tmp := abs ++ str ".tmp." ++ pid
    let fs3 := fs2.write tmp newContent
    let fs4 := fs3.rename tmp abs
    pure (⟨true, [], beforeHash, afterHash, newContent.length, artifact, []⟩, fs4)
  else
    pure (⟨false, str "dry-run", beforeHash, afterHash, newContent.length,
           artifact, []⟩, fs2)

end Part3

namespace Cmd

/-- `trim` from `src/tools/cmd.mjs`: truncate a string to at most `n`
characters (default 20000). -/
def trim (s : JStr) (n : Nat := 20000) : JStr :=
  if n < s.length then s.take n else s

/-- Stand-in for the external `strip-ansi` npm package: removal of ANSI escape
sequences, modelled as dropping every escape character; no proof depends on
which characters are removed. -/
def stripAnsi (s : JStr) : JStr :=
  s.filter (fun c => c ≠ Char.ofNat 27)

/-- The outcome of the `execa` subprocess call inside `runCmd`: either a
resolved call, or a thrown error object whose `exitCode`/`stdout`/`stderr`
fields may each be absent (`undefined`).  Timeouts and kills surface as thrown
errors with no `exitCode`. -/
inductive ExecOutcome where
  | ok (exitCode : Int) (stdout stderr : JStr)
  | fail (exitCode : Option Int) (stdout stderr : Option JStr)

/-- The result object `{exitCode, stdout, stderr}` returned by `runCmd`. -/
structure CmdResult where
  exitCode : Int
  stdout : JStr
  stderr : JStr
  deriving DecidableEq

/-- `runCmd` from `src/tools/cmd.mjs`: wrap the subprocess call in
`try`/`catch`; the catch branch substitutes `err.exitCode ?? 1` and the
(possibly absent) captured output, so every outcome yields a result object. -/
def runCmd (outcome : ExecOutcome) : CmdResult :=
  match outcome with
  | .ok code out err => ⟨code, trim (stripAnsi out), trim (stripAnsi err)⟩
  | .fail code out err =>
    ⟨code.getD 1, trim (stripAnsi (out.getD [])), trim (stripAnsi (err.getD []))⟩

end Cmd

namespace Engineer

/-- A function call extracted from a model response: a tool name and its
(serialised) argument object; an absent `args` field defaults to `{}`,
serialised here as the empty list. -/
structure Call where
  name : JStr
  args : JStr
  deriving DecidableEq

/-- One element of `candidates[0].content.parts` in the legacy response
envelope: a part may carry a text field, a functionCall field, both, or
neither. -/
structure Part where
  text : Option JStr
  functionCall : Option (JStr × Option JStr)
  deriving DecidableEq

/-- A raw backend response, as far as `normalizeResponse` discriminates
shapes: a flat object whose `text` is a string and/or whose `functionCalls` is
an array, a legacy envelope reached through `resp.response.candidates`, or any
other value (absent fields read as `undefined`). -/
inductive Raw where
  | flat (text : Option JStr) (functionCalls : Option (List Call))
  | nested (candidates : List (List Part))
  | unknown
  deriving DecidableEq

/-- The canonical normalized response `{text, functionCalls}`. -/
structure Norm where
  text : JStr
  functionCalls : List Call
  deriving DecidableEq

open NodePath in
/-- `normalizeResponse` from `src/ai-engineer.mjs` (same function in
`src/unnamed/part_001`): accept a flat shape when `typeof resp.text ===
'string'` or `Array.isArray(resp.functionCalls)`; otherwise read
`resp.response.candidates[0].content.parts`, join the text parts with
newlines, collect the function-call parts (defaulting absent `args` to `{}`);
any other shape yields empty text and no calls. -/
def normalizeResponse (resp : Raw) : Norm :=
  match resp with
  | .flat t fc =>
    if t.isSome || fc.isSome then ⟨t.getD [], fc.getD []⟩
    else ⟨sepJoin '\n' [], []⟩
  | .nested cands =>
    let parts := (cands.headI : List Part)
    ⟨sepJoin '\n' (parts.filterMap Part.text),
     parts.filterMap (fun p => p.functionCall.map (fun fc => ⟨fc.1, fc.2.getD []⟩))⟩
  | .unknown => ⟨sepJoin '\n' [], []⟩

/-- An error value thrown by the backend call: an HTTP-like status (absent for
network-level failures) and an identifying message. -/
structure Err where
  status : Option Nat
  message : JStr
  deriving DecidableEq

/-- The error created by `new Error('Empty model response; will retry')`. -/
def emptyErr : Err := ⟨none, str "Empty model response; will retry"⟩

/-- The error created by `new Error('Model did not return usable output')`. -/
def noUsableErr : Err := ⟨none, str "Model did not return usable output"⟩

/-- The fixed fallback model identifier. -/
def flashId : JStr := str "gemini-2.5-flash"

/-- What one backend call does: resolve with a raw response or throw. -/
inductive BackendOutcome where
  | resp (r : Raw)
  | throw (e : Err)

/-- A backend oracle: the outcome of the call made at a given (1-based)
attempt number with a given model identifier. -/
def Backend := Nat → JStr → BackendOutcome

/-- The observable outcome of `modelTurn`: the returned normalized response or
the finally-thrown error, the number of attempts consumed, the backoff waits
performed (in ms, in order), and the model identifier left selected. -/
structure TurnOutcome where
  result : Except Err Norm
  attempts : Nat
  waits : List Nat
  finalModel : JStr

/-- The attempt loop of `modelTurn` from `src/ai-engineer.mjs`: `fuel`
counts the remaining iterations of `for (attempt = 1; attempt <= 3; ...)`,
`attempt` is the current attempt number.  An empty normalized response records
the retry error and continues with no wait; a 404 with the primary model
still selected downgrades to the fallback and continues with no wait; any
other thrown error records a `400 * attempt` ms wait and continues; exhaustion
throws the last recorded error. -/
def modelTurnGo (backend : Backend) : Nat → Nat → JStr → Option Err → TurnOutcome
  | 0, attempt, model, lastErr =>
    ⟨.error (lastErr.getD noUsableErr), attempt - 1, [], model⟩
  | fuel + 1, attempt, model, lastErr =>
    match backend attempt model with
    | .resp r =>
      let n := normalizeResponse r
      if n.text = [] ∧ n.functionCalls = [] then
        modelTurnGo backend fuel (attempt + 1) model (some emptyErr)
      else ⟨.ok n, attempt, [], model⟩
    | .throw e =>
      if e.status = some 404 ∧ model ≠ flashId then
        modelTurnGo backend fuel (attempt + 1) flashId lastErr
      else
        let rest := modelTurnGo backend fuel (attempt + 1) model (some e)
        { rest with waits := 400 * attempt :: rest.waits }

/-- `modelTurn` from `src/ai-engineer.mjs`: up to 3 attempts starting from the
currently selected model. -/
def modelTurn (backend : Backend) (model : JStr) : TurnOutcome :=
  modelTurnGo backend 3 1 model none

end Engineer

namespace Engineer

/-- JS `\s`: whitespace characters. -/
def isSpace (c : Char) : Bool :=
  c = ' ' ∨ c = '\t' ∨ c = '\n' ∨ c = '\r' ∨ c = Char.ofNat 11 ∨ c = Char.ofNat 12

/-- One character of `[A-Z0-9_]` under the `i` flag. -/
def isWordCh (c : Char) : Bool :=
  ('A' ≤ c ∧ c ≤ 'Z') ∨ ('a' ≤ c ∧ c ≤ 'z') ∨ ('0' ≤ c ∧ c ≤ '9') ∨ c = '_'

/-- Case-insensitive character equality. -/
def ciEq (a b : Char) : Bool := a.toLower = b.toLower

/-- Does `l` start with `pat`, case-insensitively? -/
def startsWithCI : List Char → List Char → Bool
  | [], _ => true
  | _ :: _, [] => false
  | a :: ps, b :: ls => ciEq a b && startsWithCI ps ls

/-- Match `\s*=\s*["']?[^"'\s]+` at the head of `l`; returns the number of
characters consumed. -/
def matchTail (l : List Char) : Option Nat :=
  let sp1 := l.takeWhile isSpace
  match l.drop sp1.length with
  | '=' :: r2 =>
    let sp2 := r2.takeWhile isSpace
    let r3 := r2.drop sp2.length
    let q : Nat := match r3 with
      | c :: _ => if c = '"' ∨ c = '\'' then 1 else 0
      | [] => 0
    let body := (r3.drop q).takeWhile (fun c => !(c = '"' ∨ c = '\'' ∨ isSpace c))
    if body = [] then none
    else some (sp1.length + 1 + sp2.length + q + body.length)
  | _ => none

/-- Match `[A-Z0-9_]*KEY` followed by the credential tail, with the greedy
star backtracking from star-length `k` downwards; returns (group-1 length,
tail length). -/
def keyAltGo (l : List Char) : Nat → Option (Nat × Nat)
  | 0 =>
    if startsWithCI (str "key") l then
      (matchTail (l.drop 3)).map (fun t => (3, t))
    else none
  | k + 1 =>
    if (l.take (k + 1)).all isWordCh && startsWithCI (str "key") (l.drop (k + 1)) then
      match matchTail (l.drop (k + 4)) with
      | some t => some (k + 4, t)
      | none => keyAltGo l k
    else keyAltGo l k

/-- The `[A-Z0-9_]*KEY` alternative of the credential pattern. -/
def keyAlt (l : List Char) : Option (Nat × Nat) :=
  keyAltGo l (l.takeWhile isWordCh).length

/-- The `PASS(WORD)?` alternative (greedy: `PASSWORD` before `PASS`). -/
def passAlt (l : List Char) : Option (Nat × Nat) :=
  match (if startsWithCI (str "password") l then matchTail (l.drop 8) else none) with
  | some t => some (8, t)
  | none =>
    match (if startsWithCI (str "pass") l then matchTail (l.drop 4) else none) with
    | some t => some (4, t)
    | none => none

/-- The `TOKEN` alternative. -/
def tokenAlt (l : List Char) : Option (Nat × Nat) :=
  if startsWithCI (str "token") l then
    (matchTail (l.drop 5)).map (fun t => (5, t))
  else none

/-- Match the whole credential pattern
`([A-Z0-9_]*KEY|PASS(WORD)?|TOKEN)\s*=\s*["']?[^"'\s]+` at the head of `l`,
trying the alternatives in order. -/
def matchAt (l : List Char) : Option (Nat × Nat) :=
  match keyAlt l with
  | some r => some r
  | none =>
    match passAlt l with
    | some r => some r
    | none => tokenAlt l

/-- The global-replace scan of `redact`: at each position, either replace a
credential match by `$1=[redacted]` and continue after it, or emit the
character and advance.  `fuel` bounds the recursion by the input length (every
step consumes at least one character). -/
def redactGo : Nat → List Char → List Char
  | 0, l => l
  | _, [] => []
  | fuel + 1, c :: rest =>
    match matchAt (c :: rest) with
    | some (g, t) =>
      (c :: rest).take g ++ str "=[redacted]" ++ redactGo fuel ((c :: rest).drop (g + t))
    | none => c :: redactGo fuel rest

/-- `redact` from `src/ai-engineer.mjs`:
`s.replace(/([A-Z0-9_]*KEY|PASS(WORD)?|TOKEN)\s*=\s*["']?[^"'\s]+/gi,
'$1=[redacted]')`. -/
def redact (s : JStr) : JStr := redactGo s.length s

/-- JS `String.prototype.trim`. -/
def jsTrim (s : JStr) : JStr :=
  ((s.dropWhile isSpace).reverse.dropWhile isSpace).reverse

/-- One line of the session log, as appended by `src/ai-engineer.mjs`:
the task text, a model text turn, a model function-call turn, or a tool
result. -/
inductive LogEntry where
  | userText (t : JStr)
  | modelText (t : JStr)
  | modelFunctionCall (name args : JStr)
  | toolResult (name result : JStr)
  deriving DecidableEq

/-- The session-log entries appended by one iteration of `executeToolLoop` in
`src/ai-engineer.mjs` for a normalized response: each function call is logged
as a `functionCall` entry holding its arguments as-is, followed by a `tool`
entry holding the redacted result (or the unredacted unknown-tool notice);
a plain-text response is logged redacted when its trimmed text is nonempty.
`impl` yields the serialised result of a known tool, `none` for an unknown
tool name. -/
def logEntriesForResponse (resp : Norm) (impl : Call → Option JStr) :
    List LogEntry :=
  if resp.functionCalls ≠ [] then
    (resp.functionCalls.map (fun fc =>
      match impl fc with
      | none =>
        [LogEntry.modelFunctionCall fc.name fc.args,
         LogEntry.toolResult fc.name (str "Unknown tool " ++ fc.name)]
      | some result =>
        [LogEntry.modelFunctionCall fc.name fc.args,
         LogEntry.toolResult fc.name (redact result)])).flatten
  else if jsTrim resp.text ≠ [] then [LogEntry.modelText (redact (jsTrim resp.text))]
  else []

end Engineer

namespace NodePath

theorem good_of_long (n : JStr) (hn : '/' ∉ n) (hlen : 2 < n.length) : Good n := by
  refine ⟨?_, ?_, ?_, hn⟩ <;> (intro h; subst h; simp at hlen)

/-- Two strings that extend distinct-rooted directory trees are distinct:
a path `renderAbs A` below the workspace root, extended by any slash-free
suffix, never equals an artifact path `renderAbs (P ++ [n])` when neither of
the component lists `W ≤ A` and `P` is a prefix of the other. -/
theorem renderAbs_ext_ne {W P A : List (List Char)} {n sfx : JStr}
    (hA : ∀ c ∈ A, Good c) (hPg : ∀ c ∈ P, Good c)
    (hWA : ∃ r, A = W ++ r)
    (hGn : '/' ∉ n) (hsfx : '/' ∉ sfx)
    (hWP : ¬ W <+: P) (hPW : ¬ P <+: W) (hAne : A ≠ []) :
    renderAbs A ++ sfx ≠ renderAbs (P ++ [n]) := by
  intro h
  obtain ⟨r, rfl⟩ := hWA
  have hlast : (W ++ r).getLast hAne ∈ W ++ r := List.getLast_mem hAne
  have hlastG : Good ((W ++ r).getLast hAne) := hA _ hlast
  have hdecompL : renderAbs (W ++ r) ++ sfx =
      consJoin '/' (W ++ r).dropLast ++ '/' :: ((W ++ r).getLast hAne ++ sfx) := by
    rw [renderAbs, if_neg hAne, consJoin_dropLast_getLast (W ++ r) hAne]
    simp [List.append_assoc]
  have hdecompR : renderAbs (P ++ [n]) = consJoin '/' P ++ '/' :: n := by
    rw [renderAbs, if_neg (by simp), consJoin_append, consJoin_singleton]
  rw [hdecompL, hdecompR] at h
  have hrev := congrArg List.reverse h
  rw [List.reverse_append, List.reverse_append, List.reverse_cons,
      List.reverse_cons] at hrev
  simp only [List.append_assoc, List.singleton_append] at hrev
  have hu : '/' ∉ ((W ++ r).getLast hAne ++ sfx).reverse := by
    rw [List.mem_reverse]
    intro hmem
    rcases List.mem_append.mp hmem with hm | hm
    · exact hlastG.2.2.2 hm
    · exact hsfx hm
  have hv : '/' ∉ n.reverse := by
    rw [List.mem_reverse]; exact hGn
  obtain ⟨-, hX⟩ := splitFirst_eq hu hv hrev
  have hXeq : (W ++ r).dropLast = P :=
    consJoin_good_inj (fun c hc => hA c (List.dropLast_subset _ hc)) hPg
      (List.reverse_injective hX)
  by_cases hr : r = []
  · subst hr
    rw [List.append_nil] at hXeq
    exact hPW (hXeq ▸ List.dropLast_prefix W)
  · rw [List.dropLast_append_of_ne_nil W hr] at hXeq
    exact hWP (hXeq ▸ List.prefix_append W r.dropLast)

/-- A path below one root never equals a path below another, incomparable
root (the suffix-free special case of `renderAbs_ext_ne`). -/
theorem renderAbs_under_ne {W P A : List (List Char)} {n : JStr}
    (hA : ∀ c ∈ A, Good c) (hPg : ∀ c ∈ P, Good c)
    (hWA : ∃ r, A = W ++ r) (hGn : '/' ∉ n)
    (hWP : ¬ W <+: P) (hPW : ¬ P <+: W) (hAne : A ≠ []) :
    renderAbs A ≠ renderAbs (P ++ [n]) := by
  have := @renderAbs_ext_ne W P A n [] hA hPg hWA hGn (by simp) hWP hPW hAne
  simpa using this

end NodePath

namespace Files

open NodePath

/-- The absolute path of the unified-diff artifact that `applyPatch` records
for target `fp` at timestamp `ts`. -/
def patchArtifactPath (pd ts fp : JStr) : JStr :=
  renderAbs (rootComps pd ++ [ts ++ '-' :: sanitize fp ++ str ".patch"])

/-- The absolute path of the full-content artifact that `applyPatch` records
for target `fp` at timestamp `ts`. -/
def fullArtifactPath (pd ts fp : JStr) : JStr :=
  renderAbs (rootComps pd ++ [ts ++ '-' :: sanitize fp ++ str ".full"])

theorem not_slash_sanitize (fp : JStr) : '/' ∉ sanitize fp := by
  intro h
  unfold sanitize at h
  obtain ⟨c, -, hc⟩ := List.mem_map.mp h
  by_cases h1 : c = '/' ∨ c = '\\'
  · rw [if_pos h1] at hc; exact absurd hc (by decide)
  · rw [if_neg h1] at hc
    exact h1 (Or.inl hc)

theorem patchName_not_slash (ts fp : JStr) (hts : '/' ∉ ts) :
    '/' ∉ ts ++ '-' :: sanitize fp ++ str ".patch" := by
  intro h
  rcases List.mem_append.mp h with hm | hm
  · rcases List.mem_append.mp hm with hm | hm
    · exact hts hm
    · rcases List.mem_cons.mp hm with hm | hm
      · exact absurd hm (by decide)
      · exact not_slash_sanitize fp hm
  · exact absurd hm (by decide)

theorem fullName_not_slash (ts fp : JStr) (hts : '/' ∉ ts) :
    '/' ∉ ts ++ '-' :: sanitize fp ++ str ".full" := by
  intro h
  rcases List.mem_append.mp h with hm | hm
  · rcases List.mem_append.mp hm with hm | hm
    · exact hts hm
    · rcases List.mem_cons.mp hm with hm | hm
      · exact absurd hm (by decide)
      · exact not_slash_sanitize fp hm
  · exact absurd hm (by decide)

theorem patchName_long (ts fp : JStr) :
    2 < (ts ++ '-' :: sanitize fp ++ str ".patch").length := by
  have : (str ".patch").length = 6 := rfl
  simp [List.length_append, this]
  omega

theorem fullName_long (ts fp : JStr) :
    2 < (ts ++ '-' :: sanitize fp ++ str ".full").length := by
  have : (str ".full").length = 5 := rfl
  simp [List.length_append, this]
  omega

theorem patchName_good (ts fp : JStr) (hts : '/' ∉ ts) :
    Good (ts ++ '-' :: sanitize fp ++ str ".patch") :=
  good_of_long _ (patchName_not_slash ts fp hts) (patchName_long ts fp)

theorem fullName_good (ts fp : JStr) (hts : '/' ∉ ts) :
    Good (ts ++ '-' :: sanitize fp ++ str ".full") :=
  good_of_long _ (fullName_not_slash ts fp hts) (fullName_long ts fp)

theorem good_append_artifact (pd : JStr) {n : JStr} (hn : Good n) :
    ∀ c ∈ rootComps pd ++ [n], Good c := by
  intro c hc
  rcases List.mem_append.mp hc with hm | hm
  · exact good_rootComps pd c hm
  · rcases List.mem_singleton.mp hm with rfl
    exact hn

theorem artifactPath_inj (pd : JStr) {n1 n2 : JStr} (h1 : Good n1) (h2 : Good n2)
    (h : renderAbs (rootComps pd ++ [n1]) = renderAbs (rootComps pd ++ [n2])) :
    n1 = n2 := by
  have := renderAbs_good_inj (good_append_artifact pd h1) (good_append_artifact pd h2) h
  have := List.append_cancel_left this
  simpa using this

theorem name_patch_ne_full (ts1 ts2 s1 s2 : JStr) :
    ts1 ++ '-' :: s1 ++ str ".patch" ≠ ts2 ++ '-' :: s2 ++ str ".full" := by
  intro h
  have h2 := congrArg List.getLast? h
  rw [List.getLast?_append_of_ne_nil _ (by decide),
      List.getLast?_append_of_ne_nil _ (by decide)] at h2
  exact absurd h2 (by decide)

end Files

theorem ok_bind {ε α β : Type} (a : α) (f : α → Except ε β) :
    (Except.ok a >>= f) = f a := rfl

namespace Files

open NodePath

theorem name_inj_ts {ts1 ts2 s ext : JStr}
    (h : ts1 ++ '-' :: s ++ ext = ts2 ++ '-' :: s ++ ext) : ts1 = ts2 := by
  have h1 := List.append_cancel_right h
  exact List.append_cancel_right h1

/-- The dry-run (`approve = false`) execution of `applyPatch`: success with
`wrote = false` and exactly the two artifact writes. -/
theorem applyPatch_run_dry (fp newC ws pd ts pid : JStr) (fs : FS) (abs : JStr)
    (hws : resolveInside ws fp = .ok abs)
    (hP : rootComps pd ≠ []) (hts : '/' ∉ ts) :
    applyPatch fp newC ws false pd ts pid fs =
      .ok ({ filepath := fp, wrote := false,
             diff := createPatch fp ((fs.read abs).getD []) newC,
             patchFile := patchArtifactPath pd ts fp,
             fullFileArtifact := fullArtifactPath pd ts fp,
             gitStatus := [] },
           (((ensureParent abs fs).mkdirp
               (dirname (patchArtifactPath pd ts fp))).write
               (patchArtifactPath pd ts fp)
               (createPatch fp ((fs.read abs).getD []) newC)).write
             (fullArtifactPath pd ts fp) newC) := by
  have hpn : resolveInside pd (ts ++ '-' :: sanitize fp ++ str ".patch") =
      .ok (patchArtifactPath pd ts fp) :=
    resolveInside_good_name pd _ (patchName_not_slash ts fp hts)
      (patchName_long ts fp) hP
  have hfn : pathJoin pd (ts ++ '-' :: sanitize fp ++ str ".full") =
      fullArtifactPath pd ts fp :=
    pathJoin_good_name pd _ (fullName_not_slash ts fp hts) (fullName_good ts fp hts)
  simp only [applyPatch, hws, ok_bind, hpn, hfn, Bool.false_eq_true, if_false]
  rfl

/-- The approved (`approve = true`) execution of `applyPatch`: success with
`wrote = true`, the two artifact writes, then the temporary write and the
atomic rename onto the target. -/
theorem applyPatch_run_approved (fp newC ws pd ts pid : JStr) (fs : FS) (abs : JStr)
    (hws : resolveInside ws fp = .ok abs)
    (hP : rootComps pd ≠ []) (hts : '/' ∉ ts) :
    applyPatch fp newC ws true pd ts pid fs =
      .ok ({ filepath := fp, wrote := true,
             diff := createPatch fp ((fs.read abs).getD []) newC,
             patchFile := patchArtifactPath pd ts fp,
             fullFileArtifact := fullArtifactPath pd ts fp,
             gitStatus := [] },
           (((((ensureParent abs fs).mkdirp
                 (dirname (patchArtifactPath pd ts fp))).write
                 (patchArtifactPath pd ts fp)
                 (createPatch fp ((fs.read abs).getD []) newC)).write
               (fullArtifactPath pd ts fp) newC).write
               (abs ++ str ".tmp." ++ pid) newC).rename
             (abs ++ str ".tmp." ++ pid) abs) := by
  have hpn : resolveInside pd (ts ++ '-' :: sanitize fp ++ str ".patch") =
      .ok (patchArtifactPath pd ts fp) :=
    resolveInside_good_name pd _ (patchName_not_slash ts fp hts)
      (patchName_long ts fp) hP
  have hfn : pathJoin pd (ts ++ '-' :: sanitize fp ++ str ".full") =
      fullArtifactPath pd ts fp :=
    pathJoin_good_name pd _ (fullName_not_slash ts fp hts) (fullName_good ts fp hts)
  simp only [applyPatch, hws, ok_bind, hpn, hfn, if_true]
  rfl

end Files

namespace Files

open NodePath

theorem abs_sfx_ne_artifact {ws fp abs pd n sfx : JStr}
    (hws : resolveInside ws fp = .ok abs)
    (hWP : ¬ rootComps ws <+: rootComps pd)
    (hPW : ¬ rootComps pd <+: rootComps ws)
    (hGn : Good n) (hsfx : '/' ∉ sfx) :
    abs ++ sfx ≠ renderAbs (rootComps pd ++ [n]) := by
  obtain ⟨A, hAg, hpre, habs⟩ := resolveInside_ok_comps ws fp abs hws
  have hWne : rootComps ws ≠ [] := fun h => hWP (h ▸ List.nil_prefix)
  obtain ⟨r, hr⟩ := hpre
  have hAne : A ≠ [] := by
    intro h
    rw [h] at hr
    exact hWne (List.append_eq_nil.mp hr).1
  rw [habs]
  exact renderAbs_ext_ne hAg (good_rootComps pd) ⟨r, hr.symm⟩ hGn.2.2.2 hsfx hWP hPW hAne

theorem abs_ne_artifact {ws fp abs pd n : JStr}
    (hws : resolveInside ws fp = .ok abs)
    (hWP : ¬ rootComps ws <+: rootComps pd)
    (hPW : ¬ rootComps pd <+: rootComps ws)
    (hGn : Good n) :
    abs ≠ renderAbs (rootComps pd ++ [n]) := by
  have := @abs_sfx_ne_artifact ws fp abs pd n [] hws hWP hPW hGn (by simp)
  simpa using this

theorem rootComps_pd_ne_nil {ws pd : JStr}
    (hPW : ¬ rootComps pd <+: rootComps ws) : rootComps pd ≠ [] :=
  fun h => hPW (h ▸ List.nil_prefix)

end Files

/-- **C1** — *Sandbox containment* (`resolveInside` in `src/tools/files.mjs`,
`ensureInWorkspace` in `src/unnamed/part_003`).  Part (a): whenever
`resolveInside` returns a path, that path is the workspace root itself or a
strict, well-formed descendant of it — `resolveInside` never returns a path
outside the root, for every caller-supplied relative or absolute path,
including `..` traversal and absolute-path escapes.  Parts (b) and (c):
`ensureInWorkspace`, the same resolver in `src/unnamed/part_003`, violates the
property: resolving `"../ws-evil"` against workspace `"/ws"` returns
`"/ws-evil"` — accepted because the separator-free `startsWith` test confuses
a sibling directory that shares the root's spelling with a descendant — yet
`"/ws-evil"` is not the root nor below it. -/
theorem sandbox_containment_C1 :
    (∀ ws t abs : JStr, NodePath.isAbsolute ws = true →
      Files.resolveInside ws t = .ok abs → WithinRoot (rootComps ws) abs) ∧
    Part3.ensureInWorkspace (str "/ws") (str "../ws-evil") = .ok (str "/ws-evil") ∧
    ¬ WithinRoot (rootComps (str "/ws")) (str "/ws-evil") := by
  refine ⟨fun ws t abs _ h => Files.resolveInside_ok_within ws t abs h, by decide, ?_⟩
  rintro ⟨rest, -, heq⟩
  rw [show rootComps (str "/ws") = [['w', 's']] from by decide] at heq
  cases rest with
  | nil => exact absurd heq (by decide)
  | cons c cs =>
    rw [List.singleton_append, NodePath.renderAbs, if_neg (by simp),
        NodePath.consJoin_cons, NodePath.consJoin_cons] at heq
    have h0 : str "/ws-evil" = ['/', 'w', 's', '-', 'e', 'v', 'i', 'l'] := rfl
    rw [h0] at heq
    simp at heq

/-- Witness for the universally quantified part of C1: `"sub/f.txt"` resolved
inside `"/ws"` lands within the root. -/
theorem sandbox_containment_C1_witness :
    WithinRoot (rootComps (str "/ws")) (str "/ws/sub/f.txt") :=
  sandbox_containment_C1.1 (str "/ws") (str "sub/f.txt") (str "/ws/sub/f.txt")
    (by decide) (by decide)

namespace Files

open NodePath

theorem patch_ne_full (pd ts fp : JStr) (hts : '/' ∉ ts) :
    patchArtifactPath pd ts fp ≠ fullArtifactPath pd ts fp := by
  intro h
  exact name_patch_ne_full ts ts _ _
    (artifactPath_inj pd (patchName_good ts fp hts) (fullName_good ts fp hts) h)

end Files

/-- **C2** — *Unconditional patch artifacts* (`applyPatch` in
`src/tools/files.mjs`).  For every invocation whose target resolves inside the
workspace (with the patches directory outside the workspace tree and
slash-free timestamp and pid strings), `applyPatch` succeeds and, for **both**
values of `approve`, persists exactly one artifact pair — the unified-diff
file and the full copy of the new content, at two distinct paths determined
only by the patches directory, the timestamp and the target (never by the
approval decision) — touches nothing else except the approved in-place write,
and reports `wrote = approve`; when the write is not approved the target file
is untouched and only the artifact pair is produced. -/
theorem patch_artifacts_unconditional_C2
    (fp newC ws pd ts pid : JStr) (fs : Files.FS) (abs : JStr)
    (hws : Files.resolveInside ws fp = .ok abs)
    (hts : '/' ∉ ts) (hpid : '/' ∉ pid)
    (hWP : ¬ rootComps ws <+: rootComps pd)
    (hPW : ¬ rootComps pd <+: rootComps ws) :
    ∀ approve : Bool, ∃ fs' : Files.FS,
      Files.applyPatch fp newC ws approve pd ts pid fs =
        .ok ({ filepath := fp, wrote := approve,
               diff := Files.createPatch fp ((fs.read abs).getD []) newC,
               patchFile := Files.patchArtifactPath pd ts fp,
               fullFileArtifact := Files.fullArtifactPath pd ts fp,
               gitStatus := [] }, fs') ∧
      Files.patchArtifactPath pd ts fp ≠ Files.fullArtifactPath pd ts fp ∧
      fs'.read (Files.patchArtifactPath pd ts fp) =
        some (Files.createPatch fp ((fs.read abs).getD []) newC) ∧
      fs'.read (Files.fullArtifactPath pd ts fp) = some newC ∧
      (∀ q, q ≠ Files.patchArtifactPath pd ts fp →
            q ≠ Files.fullArtifactPath pd ts fp →
            q ≠ abs → q ≠ abs ++ str ".tmp." ++ pid →
            fs'.read q = fs.read q) ∧
      (approve = false → fs'.read abs = fs.read abs) := by
  intro approve
  have hPne := Files.rootComps_pd_ne_nil hPW
  have hGp := Files.patchName_good ts fp hts
  have hGf := Files.fullName_good ts fp hts
  have hPf := Files.patch_ne_full pd ts fp hts
  have habsP : abs ≠ Files.patchArtifactPath pd ts fp :=
    Files.abs_ne_artifact hws hWP hPW hGp
  have habsF : abs ≠ Files.fullArtifactPath pd ts fp :=
    Files.abs_ne_artifact hws hWP hPW hGf
  have hsfx : '/' ∉ str ".tmp." ++ pid := by
    intro h
    rcases List.mem_append.mp h with hm | hm
    · exact absurd hm (by decide)
    · exact hpid hm
  have htmpP : abs ++ str ".tmp." ++ pid ≠ Files.patchArtifactPath pd ts fp := by
    rw [List.append_assoc]
    exact Files.abs_sfx_ne_artifact hws hWP hPW hGp hsfx
  have htmpF : abs ++ str ".tmp." ++ pid ≠ Files.fullArtifactPath pd ts fp := by
    rw [List.append_assoc]
    exact Files.abs_sfx_ne_artifact hws hWP hPW hGf hsfx
  cases approve with
  | false =>
    refine ⟨_, Files.applyPatch_run_dry fp newC ws pd ts pid fs abs hws hPne hts,
      hPf, ?_, ?_, ?_, fun _ => ?_⟩
    · rw [Store.read_write_ne _ _ _ _ hPf, Store.read_write_self]
    · rw [Store.read_write_self]
    · intro q hq1 hq2 _ _
      rw [Store.read_write_ne _ _ _ _ hq2, Store.read_write_ne _ _ _ _ hq1]
      rfl
    · rw [Store.read_write_ne _ _ _ _ habsF, Store.read_write_ne _ _ _ _ habsP]
      rfl
  | true =>
    refine ⟨_, Files.applyPatch_run_approved fp newC ws pd ts pid fs abs hws hPne hts,
      hPf, ?_, ?_, ?_, fun h => absurd h (by decide)⟩
    · rw [Store.read_rename_other _ _ _ _ (fun h => htmpP h.symm) habsP.symm,
          Store.read_write_ne _ _ _ _ (fun h => htmpP h.symm),
          Store.read_write_ne _ _ _ _ hPf, Store.read_write_self]
    · rw [Store.read_rename_other _ _ _ _ (fun h => htmpF h.symm) habsF.symm,
          Store.read_write_ne _ _ _ _ (fun h => htmpF h.symm),
          Store.read_write_self]
    · intro q hq1 hq2 hq3 hq4
      rw [Store.read_rename_other _ _ _ _ hq4 hq3,
          Store.read_write_ne _ _ _ _ hq4,
          Store.read_write_ne _ _ _ _ hq2, Store.read_write_ne _ _ _ _ hq1]
      rfl

/-- Witness for C2 at concrete inputs: workspace `/ws`, patches directory
`/logs/patches`, target `a.txt`. -/
theorem patch_artifacts_unconditional_C2_witness :
    ∃ fs' : Files.FS,
      Files.applyPatch (str "a.txt") (str "hello") (str "/ws") false
          (str "/logs/patches") (str "T0") (str "7") Store.empty =
        .ok ({ filepath := str "a.txt", wrote := false,
               diff := Files.createPatch (str "a.txt")
                 ((Store.empty.read (str "/ws/a.txt")).getD []) (str "hello"),
               patchFile := Files.patchArtifactPath (str "/logs/patches") (str "T0") (str "a.txt"),
               fullFileArtifact := Files.fullArtifactPath (str "/logs/patches") (str "T0") (str "a.txt"),
               gitStatus := [] }, fs') ∧
      Files.patchArtifactPath (str "/logs/patches") (str "T0") (str "a.txt") ≠
        Files.fullArtifactPath (str "/logs/patches") (str "T0") (str "a.txt") ∧
      fs'.read (Files.patchArtifactPath (str "/logs/patches") (str "T0") (str "a.txt")) =
        some (Files.createPatch (str "a.txt")
          ((Store.empty.read (str "/ws/a.txt")).getD []) (str "hello")) ∧
      fs'.read (Files.fullArtifactPath (str "/logs/patches") (str "T0") (str "a.txt")) =
        some (str "hello") ∧
      (∀ q, q ≠ Files.patchArtifactPath (str "/logs/patches") (str "T0") (str "a.txt") →
            q ≠ Files.fullArtifactPath (str "/logs/patches") (str "T0") (str "a.txt") →
            q ≠ str "/ws/a.txt" → q ≠ str "/ws/a.txt" ++ str ".tmp." ++ str "7" →
            fs'.read q = Store.empty.read q) ∧
      (false = false → fs'.read (str "/ws/a.txt") = Store.empty.read (str "/ws/a.txt")) :=
  patch_artifacts_unconditional_C2 (str "a.txt") (str "hello") (str "/ws")
    (str "/logs/patches") (str "T0") (str "7") Store.empty (str "/ws/a.txt")
    (by decide) (by decide) (by decide) (by decide) (by decide) false

/-- **C3** — *Dry-run idempotence* (`applyPatch` in `src/tools/files.mjs`).
Two consecutive `apply_patch` calls with `approve = false` and identical
inputs (at two distinct timestamps — the wall clock is an input of each call)
both succeed reporting `wrote = false`, never change the content stored at the
resolved target path, and persist two pairwise-distinct artifact pairs whose
recorded diff contents are identical (both equal to the diff of the original
prior content against the new content). -/
theorem dry_run_idempotent_C3
    (fp newC ws pd ts1 ts2 pid : JStr) (fs : Files.FS) (abs : JStr)
    (hws : Files.resolveInside ws fp = .ok abs)
    (hts1 : '/' ∉ ts1) (hts2 : '/' ∉ ts2) (hne : ts1 ≠ ts2)
    (hWP : ¬ rootComps ws <+: rootComps pd)
    (hPW : ¬ rootComps pd <+: rootComps ws) :
    ∃ fs1 fs2 : Files.FS,
      Files.applyPatch fp newC ws false pd ts1 pid fs =
        .ok ({ filepath := fp, wrote := false,
               diff := Files.createPatch fp ((fs.read abs).getD []) newC,
               patchFile := Files.patchArtifactPath pd ts1 fp,
               fullFileArtifact := Files.fullArtifactPath pd ts1 fp,
               gitStatus := [] }, fs1) ∧
      Files.applyPatch fp newC ws false pd ts2 pid fs1 =
        .ok ({ filepath := fp, wrote := false,
               diff := Files.createPatch fp ((fs.read abs).getD []) newC,
               patchFile := Files.patchArtifactPath pd ts2 fp,
               fullFileArtifact := Files.fullArtifactPath pd ts2 fp,
               gitStatus := [] }, fs2) ∧
      fs1.read abs = fs.read abs ∧
      fs2.read abs = fs.read abs ∧
      Files.patchArtifactPath pd ts1 fp ≠ Files.patchArtifactPath pd ts2 fp ∧
      Files.fullArtifactPath pd ts1 fp ≠ Files.fullArtifactPath pd ts2 fp ∧
      Files.patchArtifactPath pd ts1 fp ≠ Files.fullArtifactPath pd ts2 fp ∧
      Files.patchArtifactPath pd ts2 fp ≠ Files.fullArtifactPath pd ts1 fp ∧
      Files.patchArtifactPath pd ts1 fp ≠ Files.fullArtifactPath pd ts1 fp ∧
      Files.patchArtifactPath pd ts2 fp ≠ Files.fullArtifactPath pd ts2 fp ∧
      fs2.read (Files.patchArtifactPath pd ts1 fp) =
        some (Files.createPatch fp ((fs.read abs).getD []) newC) ∧
      fs2.read (Files.patchArtifactPath pd ts2 fp) =
        some (Files.createPatch fp ((fs.read abs).getD []) newC) ∧
      fs2.read (Files.fullArtifactPath pd ts1 fp) = some newC ∧
      fs2.read (Files.fullArtifactPath pd ts2 fp) = some newC := by
  have hPne := Files.rootComps_pd_ne_nil hPW
  have hGp1 := Files.patchName_good ts1 fp hts1
  have hGf1 := Files.fullName_good ts1 fp hts1
  have hGp2 := Files.patchName_good ts2 fp hts2
  have hGf2 := Files.fullName_good ts2 fp hts2
  have hPf1 := Files.patch_ne_full pd ts1 fp hts1
  have hPf2 := Files.patch_ne_full pd ts2 fp hts2
  have habsP1 : abs ≠ Files.patchArtifactPath pd ts1 fp :=
    Files.abs_ne_artifact hws hWP hPW hGp1
  have habsF1 : abs ≠ Files.fullArtifactPath pd ts1 fp :=
    Files.abs_ne_artifact hws hWP hPW hGf1
  have habsP2 : abs ≠ Files.patchArtifactPath pd ts2 fp :=
    Files.abs_ne_artifact hws hWP hPW hGp2
  have habsF2 : abs ≠ Files.fullArtifactPath pd ts2 fp :=
    Files.abs_ne_artifact hws hWP hPW hGf2
  have h12p : Files.patchArtifactPath pd ts1 fp ≠ Files.patchArtifactPath pd ts2 fp :=
    fun h => hne (Files.name_inj_ts (Files.artifactPath_inj pd hGp1 hGp2 h))
  have h12f : Files.fullArtifactPath pd ts1 fp ≠ Files.fullArtifactPath pd ts2 fp :=
    fun h => hne (Files.name_inj_ts (Files.artifactPath_inj pd hGf1 hGf2 h))
  have hPF12 : Files.patchArtifactPath pd ts1 fp ≠ Files.fullArtifactPath pd ts2 fp :=
    fun h => Files.name_patch_ne_full ts1 ts2 _ _ (Files.artifactPath_inj pd hGp1 hGf2 h)
  have hPF21 : Files.patchArtifactPath pd ts2 fp ≠ Files.fullArtifactPath pd ts1 fp :=
    fun h => Files.name_patch_ne_full ts2 ts1 _ _ (Files.artifactPath_inj pd hGp2 hGf1 h)
  have hrun1 := Files.applyPatch_run_dry fp newC ws pd ts1 pid fs abs hws hPne hts1
  have hread1 : ((((Files.ensureParent abs fs).mkdirp
        (NodePath.dirname (Files.patchArtifactPath pd ts1 fp))).write
        (Files.patchArtifactPath pd ts1 fp)
        (Files.createPatch fp ((fs.read abs).getD []) newC)).write
        (Files.fullArtifactPath pd ts1 fp) newC).read abs = fs.read abs := by
    rw [Store.read_write_ne _ _ _ _ habsF1, Store.read_write_ne _ _ _ _ habsP1]
    rfl
  have hrun2 := Files.applyPatch_run_dry fp newC ws pd ts2 pid
    ((((Files.ensureParent abs fs).mkdirp
        (NodePath.dirname (Files.patchArtifactPath pd ts1 fp))).write
        (Files.patchArtifactPath pd ts1 fp)
        (Files.createPatch fp ((fs.read abs).getD []) newC)).write
        (Files.fullArtifactPath pd ts1 fp) newC) abs hws hPne hts2
  rw [hread1] at hrun2
  have hreadP1 : ((((Files.ensureParent abs fs).mkdirp
        (NodePath.dirname (Files.patchArtifactPath pd ts1 fp))).write
        (Files.patchArtifactPath pd ts1 fp)
        (Files.createPatch fp ((fs.read abs).getD []) newC)).write
        (Files.fullArtifactPath pd ts1 fp) newC).read
        (Files.patchArtifactPath pd ts1 fp) =
      some (Files.createPatch fp ((fs.read abs).getD []) newC) := by
    rw [Store.read_write_ne _ _ _ _ hPf1, Store.read_write_self]
  have hreadF1 : ((((Files.ensureParent abs fs).mkdirp
        (NodePath.dirname (Files.patchArtifactPath pd ts1 fp))).write
        (Files.patchArtifactPath pd ts1 fp)
        (Files.createPatch fp ((fs.read abs).getD []) newC)).write
        (Files.fullArtifactPath pd ts1 fp) newC).read
        (Files.fullArtifactPath pd ts1 fp) = some newC := by
    rw [Store.read_write_self]
  refine ⟨_, _, hrun1, hrun2, hread1, ?_, h12p, h12f, hPF12, hPF21, hPf1, hPf2,
    ?_, ?_, ?_, ?_⟩
  · rw [Store.read_write_ne _ _ _ _ habsF2, Store.read_write_ne _ _ _ _ habsP2]
    exact hread1
  · rw [Store.read_write_ne _ _ _ _ hPF12,
        Store.read_write_ne _ _ _ _ h12p]
    exact hreadP1
  · rw [Store.read_write_ne _ _ _ _ hPf2, Store.read_write_self]
  · rw [Store.read_write_ne _ _ _ _ h12f,
        Store.read_write_ne _ _ _ _ (fun h => hPF21 h.symm)]
    exact hreadF1
  · rw [Store.read_write_self]

/-- Witness for C3 at concrete inputs: two dry runs at timestamps `T0` and
`T1`. -/
theorem dry_run_idempotent_C3_witness :
    ∃ fs1 fs2 : Files.FS,
      Files.applyPatch (str "a.txt") (str "hi") (str "/ws") false
          (str "/logs/patches") (str "T0") (str "7") Store.empty =
        .ok ({ filepath := str "a.txt", wrote := false,
               diff := Files.createPatch (str "a.txt")
                 ((Store.empty.read (str "/ws/a.txt")).getD []) (str "hi"),
               patchFile := Files.patchArtifactPath (str "/logs/patches") (str "T0") (str "a.txt"),
               fullFileArtifact := Files.fullArtifactPath (str "/logs/patches") (str "T0") (str "a.txt"),
               gitStatus := [] }, fs1) ∧
      Files.applyPatch (str "a.txt") (str "hi") (str "/ws") false
          (str "/logs/patches") (str "T1") (str "7") fs1 =
        .ok ({ filepath := str "a.txt", wrote := false,
               diff := Files.createPatch (str "a.txt")
                 ((Store.empty.read (str "/ws/a.txt")).getD []) (str "hi"),
               patchFile := Files.patchArtifactPath (str "/logs/patches") (str "T1") (str "a.txt"),
               fullFileArtifact := Files.fullArtifactPath (str "/logs/patches") (str "T1") (str "a.txt"),
               gitStatus := [] }, fs2) ∧
      fs1.read (str "/ws/a.txt") = Store.empty.read (str "/ws/a.txt") ∧
      fs2.read (str "/ws/a.txt") = Store.empty.read (str "/ws/a.txt") ∧
      Files.patchArtifactPath (str "/logs/patches") (str "T0") (str "a.txt") ≠
        Files.patchArtifactPath (str "/logs/patches") (str "T1") (str "a.txt") ∧
      Files.fullArtifactPath (str "/logs/patches") (str "T0") (str "a.txt") ≠
        Files.fullArtifactPath (str "/logs/patches") (str "T1") (str "a.txt") ∧
      Files.patchArtifactPath (str "/logs/patches") (str "T0") (str "a.txt") ≠
        Files.fullArtifactPath (str "/logs/patches") (str "T1") (str "a.txt") ∧
      Files.patchArtifactPath (str "/logs/patches") (str "T1") (str "a.txt") ≠
        Files.fullArtifactPath (str "/logs/patches") (str "T0") (str "a.txt") ∧
      Files.patchArtifactPath (str "/logs/patches") (str "T0") (str "a.txt") ≠
        Files.fullArtifactPath (str "/logs/patches") (str "T0") (str "a.txt") ∧
      Files.patchArtifactPath (str "/logs/patches") (str "T1") (str "a.txt") ≠
        Files.fullArtifactPath (str "/logs/patches") (str "T1") (str "a.txt") ∧
      fs2.read (Files.patchArtifactPath (str "/logs/patches") (str "T0") (str "a.txt")) =
        some (Files.createPatch (str "a.txt")
          ((Store.empty.read (str "/ws/a.txt")).getD []) (str "hi")) ∧
      fs2.read (Files.patchArtifactPath (str "/logs/patches") (str "T1") (str "a.txt")) =
        some (Files.createPatch (str "a.txt")
          ((Store.empty.read (str "/ws/a.txt")).getD []) (str "hi")) ∧
      fs2.read (Files.fullArtifactPath (str "/logs/patches") (str "T0") (str "a.txt")) =
        some (str "hi") ∧
      fs2.read (Files.fullArtifactPath (str "/logs/patches") (str "T1") (str "a.txt")) =
        some (str "hi") :=
  dry_run_idempotent_C3 (str "a.txt") (str "hi") (str "/ws") (str "/logs/patches")
    (str "T0") (str "T1") (str "7") Store.empty (str "/ws/a.txt")
    (by decide) (by decide) (by decide) (by decide) (by decide) (by decide)

namespace Files

open NodePath

theorem dirname_abs_within {ws fp abs : JStr}
    (hws : resolveInside ws fp = .ok abs)
    (hroot : abs ≠ renderAbs (rootComps ws)) :
    WithinRoot (rootComps ws) (dirname abs) := by
  obtain ⟨A, hAg, hpre, habs⟩ := resolveInside_ok_comps ws fp abs hws
  obtain ⟨r, hr⟩ := hpre
  have hrne : r ≠ [] := by
    intro h
    rw [h, List.append_nil] at hr
    exact hroot (by rw [habs, hr])
  have hAne : A ≠ [] := by
    intro h
    rw [h] at hr
    exact hrne (List.append_eq_nil.mp hr).2
  refine ⟨r.dropLast, ?_, ?_⟩
  · intro c hc
    have : c ∈ r := List.dropLast_subset r hc
    exact hAg c (hr ▸ List.mem_append.mpr (Or.inr this))
  · rw [habs, dirname_renderAbs A hAg hAne, ← hr,
        List.dropLast_append_of_ne_nil _ hrne]

end Files

/-- **C10** — *Dry-run directory creation* (`ensureParent` and `applyPatch` in
`src/tools/files.mjs`).  Every `apply_patch` call — including an unapproved
dry run — records the parent directory of the resolved target in the
filesystem's directory set before the approval gate is consulted: the dry run
succeeds with `wrote = false` and an untouched target file, yet the parent
directory of the target (itself inside the workspace, for a target other than
the root) is present in the resulting state's directories. -/
theorem ensureParent_dryrun_C10
    (fp newC ws pd ts pid : JStr) (fs : Files.FS) (abs : JStr)
    (hws : Files.resolveInside ws fp = .ok abs)
    (hts : '/' ∉ ts)
    (hWP : ¬ rootComps ws <+: rootComps pd)
    (hPW : ¬ rootComps pd <+: rootComps ws)
    (hroot : abs ≠ NodePath.renderAbs (rootComps ws)) :
    ∃ fs' : Files.FS,
      Files.applyPatch fp newC ws false pd ts pid fs =
        .ok ({ filepath := fp, wrote := false,
               diff := Files.createPatch fp ((fs.read abs).getD []) newC,
               patchFile := Files.patchArtifactPath pd ts fp,
               fullFileArtifact := Files.fullArtifactPath pd ts fp,
               gitStatus := [] }, fs') ∧
      NodePath.dirname abs ∈ fs'.dirs ∧
      WithinRoot (rootComps ws) (NodePath.dirname abs) ∧
      fs'.read abs = fs.read abs := by
  have hPne := Files.rootComps_pd_ne_nil hPW
  have hGp := Files.patchName_good ts fp hts
  have hGf := Files.fullName_good ts fp hts
  have habsP : abs ≠ Files.patchArtifactPath pd ts fp :=
    Files.abs_ne_artifact hws hWP hPW hGp
  have habsF : abs ≠ Files.fullArtifactPath pd ts fp :=
    Files.abs_ne_artifact hws hWP hPW hGf
  refine ⟨_, Files.applyPatch_run_dry fp newC ws pd ts pid fs abs hws hPne hts,
    ?_, Files.dirname_abs_within hws hroot, ?_⟩
  · show NodePath.dirname abs ∈
      NodePath.dirname (Files.patchArtifactPath pd ts fp) ::
        NodePath.dirname abs :: fs.dirs
    exact List.mem_cons_of_mem _ (List.mem_cons_self _ _)
  · rw [Store.read_write_ne _ _ _ _ habsF, Store.read_write_ne _ _ _ _ habsP]
    rfl

/-- Witness for C10: a dry run targeting `sub/f.txt` in `/ws` creates
`/ws/sub` in the directory set without touching the file. -/
theorem ensureParent_dryrun_C10_witness :
    ∃ fs' : Files.FS,
      Files.applyPatch (str "sub/f.txt") (str "x") (str "/ws") false
          (str "/logs/patches") (str "T0") (str "7") Store.empty =
        .ok ({ filepath := str "sub/f.txt", wrote := false,
               diff := Files.createPatch (str "sub/f.txt")
                 ((Store.empty.read (str "/ws/sub/f.txt")).getD []) (str "x"),
               patchFile := Files.patchArtifactPath (str "/logs/patches") (str "T0")
                 (str "sub/f.txt"),
               fullFileArtifact := Files.fullArtifactPath (str "/logs/patches") (str "T0")
                 (str "sub/f.txt"),
               gitStatus := [] }, fs') ∧
      NodePath.dirname (str "/ws/sub/f.txt") ∈ fs'.dirs ∧
      WithinRoot (rootComps (str "/ws")) (NodePath.dirname (str "/ws/sub/f.txt")) ∧
      fs'.read (str "/ws/sub/f.txt") = Store.empty.read (str "/ws/sub/f.txt") :=
  ensureParent_dryrun_C10 (str "sub/f.txt") (str "x") (str "/ws")
    (str "/logs/patches") (str "T0") (str "7") Store.empty (str "/ws/sub/f.txt")
    (by decide) (by decide) (by decide) (by decide) (by decide)

namespace Engineer

theorem modelTurnGo_zero (backend : Backend) (attempt : Nat) (model : JStr)
    (lastErr : Option Err) :
    modelTurnGo backend 0 attempt model lastErr =
      ⟨.error (lastErr.getD noUsableErr), attempt - 1, [], model⟩ := rfl

theorem modelTurnGo_empty_step (backend : Backend) (fuel attempt : Nat)
    (model : JStr) (lastErr : Option Err) (r : Raw)
    (hb : backend attempt model = .resp r)
    (hr : normalizeResponse r = ⟨[], []⟩) :
    modelTurnGo backend (fuel + 1) attempt model lastErr =
      modelTurnGo backend fuel (attempt + 1) model (some emptyErr) := by
  rw [modelTurnGo, hb]
  simp [hr]

theorem modelTurnGo_throw_step (backend : Backend) (fuel attempt : Nat)
    (model : JStr) (lastErr : Option Err) (e : Err)
    (hb : backend attempt model = .throw e)
    (h404 : ¬(e.status = some 404 ∧ model ≠ flashId)) :
    modelTurnGo backend (fuel + 1) attempt model lastErr =
      ⟨(modelTurnGo backend fuel (attempt + 1) model (some e)).result,
       (modelTurnGo backend fuel (attempt + 1) model (some e)).attempts,
       400 * attempt :: (modelTurnGo backend fuel (attempt + 1) model (some e)).waits,
       (modelTurnGo backend fuel (attempt + 1) model (some e)).finalModel⟩ := by
  rw [modelTurnGo, hb]
  dsimp only
  rw [if_neg h404]

theorem modelTurnGo_attempts_le (backend : Backend) (fuel : Nat) :
    ∀ (attempt : Nat) (model : JStr) (lastErr : Option Err),
      (modelTurnGo backend fuel attempt model lastErr).attempts ≤ attempt + fuel - 1 := by
  induction fuel with
  | zero =>
    intro attempt model lastErr
    rw [modelTurnGo_zero]
    dsimp only
    omega
  | succ fuel ih =>
    intro attempt model lastErr
    rw [modelTurnGo]
    cases hb : backend attempt model with
    | resp r =>
      dsimp only
      by_cases hr : (normalizeResponse r).text = [] ∧ (normalizeResponse r).functionCalls = []
      · rw [if_pos hr]
        have := ih (attempt + 1) model (some emptyErr)
        omega
      · rw [if_neg hr]
        dsimp only
        omega
    | throw e =>
      dsimp only
      by_cases h404 : e.status = some 404 ∧ model ≠ flashId
      · rw [if_pos h404]
        have := ih (attempt + 1) flashId lastErr
        omega
      · rw [if_neg h404]
        dsimp only
        have := ih (attempt + 1) model (some e)
        omega

end Engineer

/-- A backend whose every call resolves with an unrecognised (hence
empty-normalizing) response shape. -/
def emptyBackend : Engineer.Backend := fun _ _ => .resp .unknown

/-- **C4 counterexample** — the claim says an empty normalized response is
retried *with a wait of `attempt * fixed_base_delay` before the next attempt*.
Against a backend whose every call yields an empty response, `modelTurn` makes
all 3 attempts and raises the last error, but performs **no** waits at all
(the claim's schedule would be `[400, 800]` or `[400, 800, 1200]` ms): the
empty-response branch executes `continue` without any backoff. -/
theorem retry_backoff_C4_counterexample :
    (Engineer.modelTurn emptyBackend (str "gemini-2.5-pro")).waits = [] ∧
    (Engineer.modelTurn emptyBackend (str "gemini-2.5-pro")).attempts = 3 ∧
    (Engineer.modelTurn emptyBackend (str "gemini-2.5-pro")).result =
      .error Engineer.emptyErr := by
  refine ⟨rfl, rfl, rfl⟩

/-- **C4 (amended)** — *Bounded retry with backoff for thrown failures only*
(`modelTurn` in `src/ai-engineer.mjs`).  (a) A model-turn attempt is made at
most 3 times per turn.  (b) When every attempt throws a non-model-not-found
error, the driver waits `attempt * 400` ms after each failed attempt
(including the third) and then fails the turn by raising the last error.
(c) When every attempt yields a normalized response with no text and no
function calls, the driver retries *immediately with no wait* and after 3
attempts fails the turn by raising the empty-response error. -/
theorem retry_behavior_C4_amended :
    (∀ (backend : Engineer.Backend) (model : JStr),
      (Engineer.modelTurn backend model).attempts ≤ 3) ∧
    (∀ (errF : Nat → JStr → Engineer.Err) (model : JStr),
      (∀ i m, (errF i m).status ≠ some 404) →
      Engineer.modelTurn (fun i m => .throw (errF i m)) model =
        ⟨.error (errF 3 model), 3, [400, 800, 1200], model⟩) ∧
    (∀ (respF : Nat → JStr → Engineer.Raw) (model : JStr),
      (∀ i m, Engineer.normalizeResponse (respF i m) = ⟨[], []⟩) →
      Engineer.modelTurn (fun i m => .resp (respF i m)) model =
        ⟨.error Engineer.emptyErr, 3, [], model⟩) := by
  refine ⟨?_, ?_, ?_⟩
  · intro backend model
    have := Engineer.modelTurnGo_attempts_le backend 3 1 model none
    simpa [Engineer.modelTurn] using this
  · intro errF model h
    have s1 := Engineer.modelTurnGo_throw_step (fun i m => .throw (errF i m)) 2 1
      model none (errF 1 model) rfl (fun hc => h 1 model hc.1)
    have s2 := Engineer.modelTurnGo_throw_step (fun i m => .throw (errF i m)) 1 2
      model (some (errF 1 model)) (errF 2 model) rfl (fun hc => h 2 model hc.1)
    have s3 := Engineer.modelTurnGo_throw_step (fun i m => .throw (errF i m)) 0 3
      model (some (errF 2 model)) (errF 3 model) rfl (fun hc => h 3 model hc.1)
    rw [Engineer.modelTurn, s1, s2, s3, Engineer.modelTurnGo_zero]
    rfl
  · intro respF model h
    have s1 := Engineer.modelTurnGo_empty_step (fun i m => .resp (respF i m)) 2 1
      model none (respF 1 model) rfl (h 1 model)
    have s2 := Engineer.modelTurnGo_empty_step (fun i m => .resp (respF i m)) 1 2
      model (some Engineer.emptyErr) (respF 2 model) rfl (h 2 model)
    have s3 := Engineer.modelTurnGo_empty_step (fun i m => .resp (respF i m)) 0 3
      model (some Engineer.emptyErr) (respF 3 model) rfl (h 3 model)
    rw [Engineer.modelTurn, s1, s2, s3, Engineer.modelTurnGo_zero]
    rfl

/-- A backend whose every call throws a plain network-style error. -/
def throwingErrF : Nat → JStr → Engineer.Err := fun _ _ => ⟨none, str "network error"⟩

/-- Witness for C4 (amended), applying part (b) at a backend that always
throws a non-404 error: exactly 3 attempts, waits 400/800/1200 ms, and the
last error is raised. -/
theorem retry_behavior_C4_amended_witness :
    Engineer.modelTurn (fun i m => .throw (throwingErrF i m)) (str "gemini-2.5-pro") =
      ⟨.error (throwingErrF 3 (str "gemini-2.5-pro")), 3, [400, 800, 1200],
       str "gemini-2.5-pro"⟩ :=
  retry_behavior_C4_amended.2.1 throwingErrF (str "gemini-2.5-pro")
    (fun _ _ h => Option.noConfusion h)

/-- **C5** — *Normalizer equivalence and totality* (`normalizeResponse` in
`src/ai-engineer.mjs` / `src/unnamed/part_001`).  A flat `{text,
functionCalls}` response and a legacy nested `response.candidates[0].content.
parts[]` response carrying the same logical content — the newline-joined text
parts and the collected function-call parts (absent `args` defaulting to the
empty object) — normalize to identical canonical output; unknown or absent
shapes (an unrecognised value, a flat object with neither field, an envelope
with no candidates) normalize to empty text and an empty call list, and the
normalizer is a total function, so it never throws. -/
theorem normalizer_equivalence_C5 :
    (∀ (t : JStr) (c : List Engineer.Call),
      Engineer.normalizeResponse (.flat (some t) (some c)) = ⟨t, c⟩) ∧
    (∀ parts : List Engineer.Part,
      Engineer.normalizeResponse (.nested [parts]) =
        Engineer.normalizeResponse (.flat
          (some (NodePath.sepJoin '\n' (parts.filterMap Engineer.Part.text)))
          (some (parts.filterMap (fun p =>
            p.functionCall.map (fun fc => ⟨fc.1, fc.2.getD []⟩)))))) ∧
    Engineer.normalizeResponse .unknown = ⟨[], []⟩ ∧
    Engineer.normalizeResponse (.flat none none) = ⟨[], []⟩ ∧
    Engineer.normalizeResponse (.nested []) = ⟨[], []⟩ :=
  ⟨fun _ _ => rfl, fun _ => rfl, rfl, rfl, rfl⟩

namespace Cmd

theorem trim_length (s : JStr) : (trim s).length ≤ 20000 := by
  unfold trim
  split
  · rw [List.length_take]
    omega
  · omega

end Cmd

/-- **C6** — *Command executor totality* (`runCmd` in `src/tools/cmd.mjs`).
`runCmd` is a total function of the subprocess outcome — every invocation,
including one whose underlying call throws, times out, or is killed, yields a
result object `{exitCode, stdout, stderr}` with both captured streams bounded
at 20000 characters, rather than propagating an exception.  A thrown outcome
yields a non-zero `exitCode`: execa attaches no `exitCode` to timeout/kill
errors (`?? 1` supplies 1) and a non-zero one to failing commands, which the
hypothesis `code ≠ some 0` embeds. -/
theorem runCmd_total_C6 :
    (∀ (code : Option Int) (out err : Option JStr), code ≠ some 0 →
      (Cmd.runCmd (.fail code out err)).exitCode ≠ 0) ∧
    (∀ oc : Cmd.ExecOutcome, (Cmd.runCmd oc).stdout.length ≤ 20000 ∧
      (Cmd.runCmd oc).stderr.length ≤ 20000) := by
  constructor
  · intro code out err h
    cases code with
    | none => simp [Cmd.runCmd]
    | some z =>
      simp only [Cmd.runCmd, Option.getD_some]
      exact fun hz => h (by rw [hz])
  · intro oc
    cases oc with
    | ok code o e => exact ⟨Cmd.trim_length _, Cmd.trim_length _⟩
    | fail code o e => exact ⟨Cmd.trim_length _, Cmd.trim_length _⟩

/-- Witness for C6: a killed/timed-out subprocess (thrown error with no
`exitCode`, partial stdout) still yields a bounded result object with non-zero
exit code. -/
theorem runCmd_total_C6_witness :
    (Cmd.runCmd (.fail none (some (str "partial output")) none)).exitCode ≠ 0 ∧
    (Cmd.runCmd (.fail none (some (str "partial output")) none)).stdout.length ≤ 20000 ∧
    (Cmd.runCmd (.fail none (some (str "partial output")) none)).stderr.length ≤ 20000 :=
  ⟨runCmd_total_C6.1 none (some (str "partial output")) none (by decide),
   (runCmd_total_C6.2 (.fail none (some (str "partial output")) none)).1,
   (runCmd_total_C6.2 (.fail none (some (str "partial output")) none)).2⟩

/-- **C7** — *Search degradation* (`searchFiles` in `src/tools/files.mjs`).
On a successful `rg` run the returned text holds at most `maxResults` matching
lines.  `rg` exits non-zero on zero matches, so the zero-match case flows
through the catch branch with empty stdout and yields the empty string — a
normal return, never an error (the function is total).  On an `rg` failure
that produced partial output, that partial stdout is returned as-is instead of
propagating the failure. -/
theorem searchFiles_degrade_C7 :
    (∀ (out : JStr) (maxResults : Nat),
      ((NodePath.splitOnChar '\n' (Files.searchFiles maxResults (.ok out))).filter
        (fun l => !l.isEmpty)).length ≤ maxResults) ∧
    (∀ maxResults : Nat, Files.searchFiles maxResults (.err none) = []) ∧
    (∀ maxResults : Nat, Files.searchFiles maxResults (.err (some [])) = []) ∧
    (∀ (s : JStr) (maxResults : Nat), s ≠ [] →
      Files.searchFiles maxResults (.err (some s)) = s) := by
  refine ⟨?_, fun _ => rfl, fun _ => rfl, ?_⟩
  · intro out maxResults
    show ((NodePath.splitOnChar '\n'
        (NodePath.sepJoin '\n'
          (((NodePath.splitOnChar '\n' out).filter (fun l => !l.isEmpty)).take
            maxResults))).filter (fun l => !l.isEmpty)).length ≤ maxResults
    set lines := ((NodePath.splitOnChar '\n' out).filter (fun l => !l.isEmpty)).take
      maxResults with hl
    have hsub : ∀ p ∈ lines, p ∈ NodePath.splitOnChar '\n' out := by
      intro p hp
      rw [hl] at hp
      have h1 : p ∈ (NodePath.splitOnChar '\n' out).filter (fun l => !l.isEmpty) :=
        List.mem_of_mem_take hp
      exact (List.mem_filter.mp h1).1
    have hnosep : ∀ p ∈ lines, '\n' ∉ p :=
      fun p hp => NodePath.not_mem_of_mem_splitOnChar '\n' out p (hsub p hp)
    have hne : ∀ p ∈ lines, (!p.isEmpty) = true := by
      intro p hp
      rw [hl] at hp
      have h1 : p ∈ (NodePath.splitOnChar '\n' out).filter (fun l => !l.isEmpty) :=
        List.mem_of_mem_take hp
      exact (List.mem_filter.mp h1).2
    by_cases hln : lines = []
    · rw [hln]
      simp [NodePath.sepJoin, NodePath.splitOnChar]
    · rw [NodePath.splitOnChar_sepJoin '\n' lines hnosep hln,
          List.filter_eq_self.mpr hne, hl]
      exact List.length_take_le _ _
  · intro s maxResults hs
    show (if s.isEmpty then [] else s) = s
    rw [if_neg (by simpa [List.isEmpty_iff] using hs)]

/-- Witness for C7: a failing `rg` with nonempty partial stdout degrades to
returning that output. -/
theorem searchFiles_degrade_C7_witness :
    Files.searchFiles 20 (.err (some (str "src/a.js:3:match"))) =
      str "src/a.js:3:match" :=
  searchFiles_degrade_C7.2.2.2 (str "src/a.js:3:match") 20 (by decide)

/-- **C8** — *Round-trip with content hash* (`applyPatch` and `readFile` in
`src/unnamed/part_003`; the `src/tools/files.mjs` variant of `readFile`
returns the decoded text only).  Writing content `C` with approval succeeds,
reports `wrote = true` with `afterHash` computed over `C` before the write,
and reading the target back (with no byte limit, or any byte limit at least
`|C|`) yields exactly `C` together with its byte length and a content hash
equal to that same pre-write hash. -/
theorem roundtrip_C8 (fp ws pd ts pid : JStr) (C : Part3.Bytes) (fs : Part3.FSb)
    (abs : JStr) (bl : Option Nat)
    (hws : Part3.ensureInWorkspace ws fp = .ok abs)
    (hbl : bl = none ∨ ∃ n, bl = some n ∧ C.length ≤ n) :
    ∃ fs' : Part3.FSb,
      Part3.applyPatch fp C ws true pd ts pid fs =
        .ok (⟨true, [], Part3.sha256 ((fs.read abs).getD []), Part3.sha256 C,
              C.length,
              NodePath.pathJoin pd (ts ++ '-' :: Part3.sanitize fp ++ str ".full"),
              []⟩, fs') ∧
      Part3.readFile fp ws bl fs' = .ok ⟨C, C.length, Part3.sha256 C⟩ := by
  refine ⟨((((fs.mkdirp pd).write
      (NodePath.pathJoin pd (ts ++ '-' :: Part3.sanitize fp ++ str ".full")) C).write
      (abs ++ str ".tmp." ++ pid) C).rename (abs ++ str ".tmp." ++ pid) abs),
    ?_, ?_⟩
  · simp only [Part3.applyPatch, hws, ok_bind, if_true]
    rfl
  · have hrd : (((((fs.mkdirp pd).write
        (NodePath.pathJoin pd (ts ++ '-' :: Part3.sanitize fp ++ str ".full")) C).write
        (abs ++ str ".tmp." ++ pid) C).rename (abs ++ str ".tmp." ++ pid) abs)).read abs =
        some C :=
      Store.read_rename_dst _ _ _ _ (Store.read_write_self _ _ _)
    simp only [Part3.readFile, hws, ok_bind, hrd]
    rcases hbl with rfl | ⟨n, rfl, hn⟩
    · rfl
    · simp only [List.take_of_length_le hn]
      rfl

/-- Witness for C8 at concrete inputs: writing the two-byte content `[104,
105]` to `a` in `/ws` and reading it back with byte limit 10. -/
theorem roundtrip_C8_witness :
    ∃ fs' : Part3.FSb,
      Part3.applyPatch (str "a") [104, 105] (str "/ws") true
          (str "/logs/patches") (str "T0") (str "7") Store.empty =
        .ok (⟨true, [], Part3.sha256 ((Store.empty.read (str "/ws/a")).getD []),
              Part3.sha256 [104, 105], 2,
              NodePath.pathJoin (str "/logs/patches")
                (str "T0" ++ '-' :: Part3.sanitize (str "a") ++ str ".full"),
              []⟩, fs') ∧
      Part3.readFile (str "a") (str "/ws") (some 10) fs' =
        .ok ⟨[104, 105], 2, Part3.sha256 [104, 105]⟩ :=
  roundtrip_C8 (str "a") (str "/ws") (str "/logs/patches") (str "T0") (str "7")
    [104, 105] Store.empty (str "/ws/a") (some 10) (by decide)
    (Or.inr ⟨10, rfl, by decide⟩)

/-- **C9 counterexample** — the claim says *every* session-log entry,
including model function-call turns, has credential-shaped substrings replaced
before being written.  But `executeToolLoop` logs the function-call entry with
its arguments verbatim (`log({role:'model', functionCall:{name, args}})`, no
`redact`): a call whose serialized arguments contain `KEY=hunter2` is appended
containing that secret unchanged, even though the code's own `redact` would
have replaced it (third conjunct). -/
theorem redaction_gap_C9_counterexample :
    Engineer.logEntriesForResponse
        ⟨[], [⟨str "apply_patch", str "KEY=hunter2"⟩]⟩
        (fun _ => some (str "done")) =
      [Engineer.LogEntry.modelFunctionCall (str "apply_patch") (str "KEY=hunter2"),
       Engineer.LogEntry.toolResult (str "apply_patch") (str "done")] ∧
    Engineer.redact (str "KEY=hunter2") ≠ str "KEY=hunter2" ∧
    Engineer.redact (str "KEY=hunter2") = str "KEY=[redacted]" := by
  refine ⟨?_, by decide, by decide⟩
  decide

/-- **C9 (amended)** — *Selective redaction* (`redact`, `executeToolLoop` in
`src/ai-engineer.mjs`).  Of the entries appended to the session log for one
normalized response: every model text entry and every known-tool result entry
carries a payload that has passed through `redact` (credential-shaped
substrings replaced); an unknown-tool result carries the fixed notice; but
every model function-call entry carries the call's arguments verbatim —
function-call arguments are *not* redacted before being written. -/
theorem redaction_C9_amended (resp : Engineer.Norm)
    (impl : Engineer.Call → Option JStr) :
    (∀ t, Engineer.LogEntry.modelText t ∈ Engineer.logEntriesForResponse resp impl →
      ∃ s, t = Engineer.redact s) ∧
    (∀ name r,
      Engineer.LogEntry.toolResult name r ∈ Engineer.logEntriesForResponse resp impl →
      (∃ s, r = Engineer.redact s) ∨ r = str "Unknown tool " ++ name) ∧
    (∀ name args,
      Engineer.LogEntry.modelFunctionCall name args ∈
        Engineer.logEntriesForResponse resp impl →
      (⟨name, args⟩ : Engineer.Call) ∈ resp.functionCalls) := by
  unfold Engineer.logEntriesForResponse
  by_cases hfc : resp.functionCalls ≠ []
  · rw [if_pos hfc]
    refine ⟨?_, ?_, ?_⟩
    · intro t ht
      rw [List.mem_flatten] at ht
      obtain ⟨s, hs, hts⟩ := ht
      rw [List.mem_map] at hs
      obtain ⟨fc, -, rfl⟩ := hs
      cases himpl : impl fc <;> rw [himpl] at hts <;> simp at hts
    · intro name r hr
      rw [List.mem_flatten] at hr
      obtain ⟨s, hs, hrs⟩ := hr
      rw [List.mem_map] at hs
      obtain ⟨fc, -, rfl⟩ := hs
      cases himpl : impl fc with
      | none =>
        rw [himpl] at hrs
        rcases List.mem_cons.mp hrs with h1 | h1
        · exact absurd h1 (by simp)
        · rcases List.mem_cons.mp h1 with h2 | h2
          · right
            injection h2 with hn hr
            rw [hn]
            exact hr
          · simp at h2
      | some result =>
        rw [himpl] at hrs
        rcases List.mem_cons.mp hrs with h1 | h1
        · exact absurd h1 (by simp)
        · rcases List.mem_cons.mp h1 with h2 | h2
          · left
            injection h2 with hn hr
            exact ⟨result, hr⟩
          · simp at h2
    · intro name args hm
      rw [List.mem_flatten] at hm
      obtain ⟨s, hs, hms⟩ := hm
      rw [List.mem_map] at hs
      obtain ⟨fc, hfcmem, rfl⟩ := hs
      have : (⟨name, args⟩ : Engineer.Call) = fc := by
        cases himpl : impl fc <;> rw [himpl] at hms <;>
          rcases List.mem_cons.mp hms with h1 | h1 <;>
            first
              | (injection h1 with hn ha
                 cases fc
                 simp only [Engineer.Call.mk.injEq]
                 exact ⟨hn, ha⟩)
              | (rcases List.mem_cons.mp h1 with h2 | h2
                 · exact absurd h2 (by simp)
                 · simp at h2)
      rw [this]
      exact hfcmem
  · rw [if_neg hfc]
    by_cases htx : Engineer.jsTrim resp.text ≠ []
    · rw [if_pos htx]
      refine ⟨?_, ?_, ?_⟩
      · intro t ht
        rcases List.mem_singleton.mp ht with h1
        injection h1 with h2
        exact ⟨Engineer.jsTrim resp.text, h2⟩
      · intro name r hr
        have := List.mem_singleton.mp hr
        exact absurd this (by simp)
      · intro name args hm
        have := List.mem_singleton.mp hm
        exact absurd this (by simp)
    · rw [if_neg htx]
      exact ⟨fun t ht => absurd ht (by simp),
             fun name r hr => absurd hr (by simp),
             fun name args hm => absurd hm (by simp)⟩

/-- Witness for C9 (amended): applied to a plain text response, the single
appended entry's payload is in the image of `redact`. -/
theorem redaction_C9_amended_witness :
    ∃ s, Engineer.redact (Engineer.jsTrim (str " TOKEN=t0p hi ")) = Engineer.redact s :=
  (redaction_C9_amended ⟨str " TOKEN=t0p hi ", []⟩ (fun _ => none)).1
    (Engineer.redact (Engineer.jsTrim (str " TOKEN=t0p hi "))) (by decide)
